import Mathlib

/-!
Verification of the clox bytecode compiler and virtual machine against its
natural-language specification.  The C sources are shallowly embedded in
Lean: pure C functions become Lean functions over explicit state records,
machine integers become Nat with explicit reduction modulo 2^32 or 2^64
where overflow matters, and fallible paths return explicit flags mirroring
the C control flow.  Heap pointers are represented by object identifiers
(sequential Nat ids), so pointer equality of the C code becomes equality of
ids.  Each section names the C source file and function it embeds.
-/

namespace Clox

/-! ### String hashing (src/object.c, hash_string)

The C function reads each byte of the key, xors it into a 32-bit
accumulator and multiplies by 16777619, starting from the literal
216613626u that appears in the source.  Characters are taken to their
byte value modulo 256, matching the (uint8_t) cast. -/

/-- Embedding of hash_string from src/object.c: the exact fold the code
performs, including its starting constant 216613626. -/
def hash_string (key : List Char) : Nat :=
  key.foldl (fun hash c => ((hash ^^^ (c.toNat % 256)) * 16777619) % 4294967296) 216613626

/-- Reference definition, following the specification words: the 32-bit
FNV-1a hash, i.e. the same fold but starting from the FNV-1a offset basis
2166136261. -/
def fnv1a32 (key : List Char) : Nat :=
  key.foldl (fun hash c => ((hash ^^^ (c.toNat % 256)) * 16777619) % 4294967296) 2166136261

/-! ### String interning (src/object.c and the table in src/unnamed sources)

A LoxString is represented by its object id, its character contents and its
stored hash.  The interned-string table vm.strings is represented by the
list of its keys; table_find_string probes an open-addressed table but its
observable behaviour is to locate a stored key agreeing in length, hash and
contents (the memcmp), which is what the embedding performs. -/

structure StrObj where
  sid : Nat
  chars : List Char
  hash : Nat
  deriving DecidableEq

structure InternSt where
  pool : List StrObj
  next_id : Nat
  deriving DecidableEq

/-- Embedding of table_find_string: return a stored key whose length, hash
and contents all agree with the query, or none. -/
def table_find_string (pool : List StrObj) (chars : List Char) (length : Nat) (hash : Nat) :
    Option StrObj :=
  pool.find? (fun o => o.chars.length = length && o.hash = hash && o.chars = chars)

/-- Embedding of allocate_string from src/object.c: make a fresh String
object and intern it (table_set of the key into vm.strings). -/
def allocate_string (chars : List Char) (hash : Nat) (st : InternSt) : StrObj × InternSt :=
  let o : StrObj := ⟨st.next_id, chars, hash⟩
  (o, ⟨o :: st.pool, st.next_id + 1⟩)

/-- Embedding of take_string from src/object.c: hash the characters, return
the already-interned String when one exists, otherwise allocate.  (Freeing
the donated buffer has no observable counterpart here.) -/
def take_string (chars : List Char) (st : InternSt) : StrObj × InternSt :=
  let hash := hash_string chars
  match table_find_string st.pool chars chars.length hash with
  | some interned => (interned, st)
  | none => allocate_string chars hash st

/-- Embedding of copy_string from src/object.c: identical lookup logic;
the heap copy of the character buffer has no observable counterpart. -/
def copy_string (chars : List Char) (st : InternSt) : StrObj × InternSt :=
  let hash := hash_string chars
  match table_find_string st.pool chars chars.length hash with
  | some interned => (interned, st)
  | none => allocate_string chars hash st

/-- Well-formedness of the intern table: every stored String carries the
hash of its own contents (allocate_string computes it that way), and no
two stored String objects have the same byte contents (spec invariant
2). -/
def InternWF (st : InternSt) : Prop :=
  (∀ o ∈ st.pool, o.hash = hash_string o.chars) ∧
  (∀ o1 ∈ st.pool, ∀ o2 ∈ st.pool, o1.chars = o2.chars → o1 = o2)

/-! ### Runtime values and the OP_ADD step (src/unnamed/part_003, run)

Numbers are modelled as rationals standing in for the IEEE double; the
claims settled here depend only on the type dispatch, not on rounding.
The value stack is a list whose head is the stack top. -/

inductive RVal where
  | nil
  | boolV (b : Bool)
  | num (q : ℚ)
  | strV (o : StrObj)
  | closureV (arity : Nat)
  | classV (name : List Char) (methods : List (List Char × RVal))
  | instanceV (className : List Char) (iid : Nat)
  | nativeV (nid : Nat)

/-- Embedding of the IS_STRING macro. -/
def is_string_val : RVal → Bool
  | .strV _ => true
  | _ => false

/-- Embedding of the IS_NUMBER macro. -/
def is_number_val : RVal → Bool
  | .num _ => true
  | _ => false

/-- Embedding of InterpretResult from src/src/vm.h. -/
inductive InterpretResult where
  | INTERPRET_OK
  | INTERPRET_COMPILE_ERROR
  | INTERPRET_RUNTIME_ERROR
  deriving DecidableEq

/-- State used by the OP_ADD step: the value stack (head = top) and the
interned-string table. -/
structure AddSt where
  stack : List RVal
  strings : InternSt

/-- Embedding of concatenate from src/unnamed/part_003: peek both string
operands, join the character buffers, intern via take_string, pop twice and
push the result. -/
def concatenate (s : AddSt) : AddSt :=
  match s.stack with
  | b :: a :: rest =>
    match a, b with
    | .strV ao, .strV bo =>
      let chars := ao.chars ++ bo.chars
      let (result, strings) := take_string chars s.strings
      ⟨.strV result :: rest, strings⟩
    | _, _ => s
  | _ => s

/-- Embedding of the OP_ADD case of run from src/unnamed/part_003: strings
concatenate, numbers add (BINARY_OP pops b then a and pushes a + b), and
anything else raises the runtime error and makes run return
INTERPRET_RUNTIME_ERROR.  The result carries the error message when one was
printed and the InterpretResult that run returns from this opcode (none
means execution continues). -/
def op_add (s : AddSt) : Option String × Option InterpretResult × AddSt :=
  let peek0 := s.stack.getD 0 .nil
  let peek1 := s.stack.getD 1 .nil
  if is_string_val peek0 && is_string_val peek1 then
    (none, none, concatenate s)
  else if is_number_val peek0 && is_number_val peek1 then
    match s.stack with
    | .num b :: .num a :: rest => (none, none, ⟨.num (a + b) :: rest, s.strings⟩)
    | _ => (none, none, s)
  else
    (some "Operands to \x27+\x27 must be two strings or two numbers",
     some .INTERPRET_RUNTIME_ERROR, s)

/-! ### The call protocol (src/unnamed/part_003, call and call_value)

The VM state kept here is the part these functions touch: the value stack,
the frame count, the id supply for fresh Instance objects, and the list of
runtime-error messages printed so far.  runtime_error prints and then
resets the stack (reset_stack). -/

structure VmSt where
  stack : List RVal
  frame_count : Nat
  next_obj : Nat
  error_msgs : List String

/-- Embedding of runtime_error followed by reset_stack from
src/unnamed/part_003. -/
def runtime_error (msg : String) (s : VmSt) : VmSt :=
  { s with error_msgs := s.error_msgs ++ [msg], stack := [], frame_count := 0 }

/-- Embedding of FRAMES_MAX from src/src/vm.h. -/
def FRAMES_MAX : Nat := 64

/-- Embedding of call from src/unnamed/part_003: arity check, frame-depth
check, then push a frame.  Returns the C functions boolean result. -/
def call (arity : Nat) (arg_count : Nat) (s : VmSt) : Bool × VmSt :=
  if arg_count ≠ arity then
    (false, runtime_error
      ("Expected " ++ toString arity ++ " arguments but got " ++ toString arg_count ++ ".") s)
  else if s.frame_count = FRAMES_MAX then
    (false, runtime_error "Stack overflow." s)
  else
    (true, { s with frame_count := s.frame_count + 1 })

/-- Embedding of table_get on a method table: keys are interned strings, so
the pointer comparison of find_entry coincides with content comparison. -/
def table_get (methods : List (List Char × RVal)) (name : List Char) : Option RVal :=
  (methods.find? (fun p => p.1 = name)).map (fun p => p.2)

/-- Embedding of the AS_CLOSURE cast as used on an init method: the arity
of the closure (only field the call protocol reads). -/
def as_closure_arity : RVal → Nat
  | .closureV arity => arity
  | _ => 0

/-- Embedding of call_value from src/unnamed/part_003 for the cases of a
class, a closure and a non-callable value.  For a class the callee stack
slot stack_top[-arg_count - 1] is replaced by a fresh Instance; when the
method table has an init entry that closure is called; otherwise, when
arg_count is nonzero, the code calls runtime_error and then falls through
to return true (there is no return false on that path in the source). -/
def call_value (callee : RVal) (arg_count : Nat) (s : VmSt) : Bool × VmSt :=
  match callee with
  | .classV name methods =>
    let s1 : VmSt :=
      { s with stack := s.stack.set arg_count (.instanceV name s.next_obj),
               next_obj := s.next_obj + 1 }
    (match table_get methods (['i', 'n', 'i', 't']) with
     | some initializer => call (as_closure_arity initializer) arg_count s1
     | none =>
       if arg_count ≠ 0 then
         (true, runtime_error ("Exected 0 arguments but got " ++ toString arg_count ++ ".") s1)
       else (true, s1))
  | .closureV arity => call arity arg_count s
  | _ => (false, runtime_error "Can only call functions and classes." s)

/-- Embedding of the OP_CALL case of run from src/unnamed/part_003: when
call_value returns false, run returns INTERPRET_RUNTIME_ERROR; otherwise
execution continues in the (possibly new) frame. -/
def op_call_step (arg_count : Nat) (s : VmSt) : Option InterpretResult × VmSt :=
  let callee := s.stack.getD arg_count .nil
  let (ok, s1) := call_value callee arg_count s
  if ok then (none, s1) else (some .INTERPRET_RUNTIME_ERROR, s1)

/-! ### Garbage-collection accounting (src/src/memory.c and src/src/test.c)

The embedded state carries the byte counter and threshold (size_t, hence
modulo 2^64), plus a counter of collections for observability.  The bytes
surviving a collection depend on the object graph, which is outside this
state; collect_garbage therefore takes the number of bytes freed by the
sweep as a parameter.  GC_HEAP_GROW_FACTOR is the macro text 3/2, so the
C expression bytes * GC_HEAP_GROW_FACTOR parses as (bytes * 3) / 2 in
size_t arithmetic. -/

structure GcSt where
  bytes_allocated : Nat
  next_gc : Nat
  collections : Nat
  deriving DecidableEq

/-- Embedding of the size_t width. -/
def SIZE_T_MOD : Nat := 2 ^ 64

/-- Embedding of collect_garbage from src/src/memory.c restricted to the
accounting the claim is about: the sweep lowers bytes_allocated by the
bytes freed, and then next_gc is set to vm.bytes_allocated *
GC_HEAP_GROW_FACTOR, i.e. (bytes * 3) / 2 with the multiplication in
size_t. -/
def collect_garbage (freed : Nat) (st : GcSt) : GcSt :=
  let bytes := st.bytes_allocated - freed
  { bytes_allocated := bytes,
    next_gc := bytes * 3 % SIZE_T_MOD / 2,
    collections := st.collections + 1 }

/-- Embedding of reallocate from src/src/memory.c: update bytes_allocated
by new_size - old_size in size_t arithmetic; under CLOX_STRESS_GC collect
on any growth; then collect when the counter exceeds next_gc.  The freed
parameters stand for the sweep results of the two potential collections. -/
def reallocate (stress : Bool) (old_size new_size : Nat) (freed1 freed2 : Nat)
    (st : GcSt) : GcSt :=
  let st1 : GcSt :=
    { st with bytes_allocated :=
        (st.bytes_allocated + new_size + (SIZE_T_MOD - old_size % SIZE_T_MOD)) % SIZE_T_MOD }
  let st2 := if stress && decide (old_size < new_size) then collect_garbage freed1 st1 else st1
  if st2.next_gc < st2.bytes_allocated then collect_garbage freed2 st2 else st2

/-- Embedding of the GC fields set by init_vm from src/unnamed/part_003:
bytes_allocated = 0 and next_gc = 1024 * 1024. -/
def init_vm_gc : GcSt := ⟨0, 1024 * 1024, 0⟩

/-! ### Upvalue capture (src/unnamed/part_003, capture_upvalue)

An open upvalue is its object id plus the stack slot its location pointer
addresses; the open list vm.open_upvalues is a Lean list with the head the
first list node.  Pointer comparison of locations becomes comparison of
slot indices. -/

structure Upv where
  uid : Nat
  location : Nat
  deriving DecidableEq

/-- Embedding of capture_upvalue from src/unnamed/part_003: walk the list
while the entry location is above the requested slot; return an entry whose
location equals the slot; otherwise splice a fresh upvalue (new_upvalue
gives it the id fresh) in front of the first entry at or below the slot. -/
def capture_upvalue (fresh : Nat) (local_ : Nat) : List Upv → Upv × List Upv
  | [] => (⟨fresh, local_⟩, [⟨fresh, local_⟩])
  | u :: rest =>
    if local_ < u.location then
      let (r, rest1) := capture_upvalue fresh local_ rest
      (r, u :: rest1)
    else if u.location = local_ then (u, u :: rest)
    else (⟨fresh, local_⟩, ⟨fresh, local_⟩ :: u :: rest)

/-! ### Token kinds (src/src/lexer.c usage and the rules table of src/src/test.c) -/

inductive TokenType where
  | TOKEN_LEFT_PAREN | TOKEN_RIGHT_PAREN | TOKEN_LEFT_BRACE | TOKEN_RIGHT_BRACE
  | TOKEN_COMMA | TOKEN_DOT | TOKEN_MINUS | TOKEN_PLUS | TOKEN_SEMICOLON
  | TOKEN_SLASH | TOKEN_STAR
  | TOKEN_BANG | TOKEN_BANG_EQUAL | TOKEN_EQUAL | TOKEN_EQUAL_EQUAL
  | TOKEN_GREATER | TOKEN_GREATER_EQUAL | TOKEN_LESS | TOKEN_LESS_EQUAL
  | TOKEN_IDENTIFIER | TOKEN_STRING | TOKEN_FLOAT64 | TOKEN_INT
  | TOKEN_AND | TOKEN_BREAK | TOKEN_CLASS | TOKEN_ELSE | TOKEN_FALSE
  | TOKEN_FOR | TOKEN_FUN | TOKEN_IF | TOKEN_NIL | TOKEN_OR
  | TOKEN_RETURN | TOKEN_SUPER | TOKEN_THIS | TOKEN_TRUE | TOKEN_VAR
  | TOKEN_WHILE | TOKEN_ERROR | TOKEN_EOF
  deriving DecidableEq

/-! ### The number rule of the lexer (src/src/lexer.c, number)

The lexer is positioned just after the leading digit when number() runs,
so the embedding takes the characters after that digit and returns the
token kind, the diagnostic message for an error token, the characters it
consumed and the remaining input.  peek() at end of input reads the NUL
terminator, which the list embedding renders as the empty-list cases. -/

/-- Embedding of is_digit from src/src/lexer.c. -/
def is_digit (c : Char) : Bool := decide ('0' ≤ c) && decide (c ≤ '9')

/-- Embedding of the repeated loop while (is_digit(peek) or peek = underscore)
advance(); returns the consumed characters and the remaining input. -/
def du_span : List Char → List Char × List Char
  | [] => ([], [])
  | c :: cs =>
    if is_digit c || c = '_' then
      let (t, r) := du_span cs
      (c :: t, r)
    else ([], c :: cs)

/-- Result of the embedded number(): the token kind, the error message when
the kind is TOKEN_ERROR, the characters consumed after the leading digit,
and the rest of the input. -/
structure NumResult where
  kind : TokenType
  msg : String
  consumed : List Char
  rest : List Char
  deriving DecidableEq

/-- Embedding of the exponent half of number() from src/src/lexer.c: after
an e or E the next character must be a digit or a sign, a sign must be
followed by a digit, and then digits and underscores are consumed.  When no
exponent begins, the token kind is TOKEN_FLOAT64 exactly when a fraction
was seen, else TOKEN_INT. -/
def number_exp (has_fraction : Bool) (acc : List Char) : List Char → NumResult
  | c :: r1 =>
    if c = 'e' || c = 'E' then
      match r1 with
      | d :: r2 =>
        if is_digit d then
          let (ex, r3) := du_span r1
          ⟨.TOKEN_FLOAT64, "", acc ++ c :: ex, r3⟩
        else if d = '+' || d = '-' then
          match r2 with
          | d2 :: _ =>
            if is_digit d2 then
              let (ex, r3) := du_span r2
              ⟨.TOKEN_FLOAT64, "", acc ++ c :: d :: ex, r3⟩
            else ⟨.TOKEN_ERROR, "Expect number after exponent.", acc ++ [c, d], r2⟩
          | [] => ⟨.TOKEN_ERROR, "Expect number after exponent.", acc ++ [c, d], []⟩
        else ⟨.TOKEN_ERROR, "Expect number after exponent.", acc ++ [c], r1⟩
      | [] => ⟨.TOKEN_ERROR, "Expect number after exponent.", acc ++ [c], []⟩
    else if has_fraction then ⟨.TOKEN_FLOAT64, "", acc, c :: r1⟩
    else ⟨.TOKEN_INT, "", acc, c :: r1⟩
  | [] =>
    if has_fraction then ⟨.TOKEN_FLOAT64, "", acc, []⟩ else ⟨.TOKEN_INT, "", acc, []⟩

/-- Embedding of number() from src/src/lexer.c, entered after the leading
digit: consume digits and underscores, then an optional fraction (a dot
must be followed by a digit), then the optional exponent. -/
def number (cs : List Char) : NumResult :=
  let (i, r1) := du_span cs
  match r1 with
  | c1 :: r2 =>
    if c1 = '.' then
      match r2 with
      | c :: _ =>
        if is_digit c then
          let (f, r3) := du_span r2
          number_exp true (i ++ '.' :: f) r3
        else ⟨.TOKEN_ERROR, "Expect digit after decimal point.", i ++ ['.'], r2⟩
      | [] => ⟨.TOKEN_ERROR, "Expect digit after decimal point.", i ++ ['.'], []⟩
    else number_exp false i (c1 :: r2)
  | [] => number_exp false i []

/-- Embedding of str_to_d from src/src/test.c: the loop that copies every
character other than an underscore, in order, into the buffer handed to
strtod.  (The C buffer is 100 bytes; tokens are assumed to fit, and strtod
itself is libc, so the embedding exposes the buffer contents.) -/
def str_to_d (token : List Char) : List Char :=
  token.foldl (fun acc c => if c ≠ '_' then acc ++ [c] else acc) []

/-- Helper: all characters are digits or underscores. -/
def du_chars (cs : List Char) : Bool := cs.all (fun c => is_digit c || c = '_')

/-- Stated from the claim words: a digit run in which underscores appear
only between digits, i.e. nonempty, made of digits and underscores, and
beginning and ending with a digit. -/
def spec_digit_run (cs : List Char) : Bool :=
  match cs with
  | [] => false
  | c :: _ =>
    is_digit c && du_chars cs &&
      (match cs.getLast? with
       | some d => is_digit d
       | none => false)

/-- Stated from the claim words: digit run in which underscores sit only
between digits, optional fraction (a dot followed by such a run), optional
exponent (e or E, optional sign, then such a run).  Split at the first e or
E and then at the first dot, which is faithful because runs contain neither
character. -/
def spec_number_shape (cs : List Char) : Bool :=
  let mantissa := cs.takeWhile (fun c => !(c = 'e' || c = 'E'))
  let expPart := cs.dropWhile (fun c => !(c = 'e' || c = 'E'))
  let intPart := mantissa.takeWhile (fun c => c ≠ '.')
  let fracPart := mantissa.dropWhile (fun c => c ≠ '.')
  spec_digit_run intPart &&
    (match fracPart with
     | [] => true
     | c :: fd => c = '.' && spec_digit_run fd) &&
    (match expPart with
     | [] => true
     | _ :: rest =>
       match rest with
       | s :: rest2 =>
         if s = '+' || s = '-' then spec_digit_run rest2 else spec_digit_run rest
       | [] => false)

/-- Run in the shape the code actually accepts: a digit followed by any
mix of digits and underscores (so underscores may repeat and may trail). -/
def amended_run (cs : List Char) : Bool :=
  match cs with
  | [] => false
  | c :: rest => is_digit c && du_chars rest

/-! ### The compiler (src/src/test.c)

The embedding covers the expression compiler at the top level of a script:
the Pratt parser, its rules table, constant emission and the locals array.
The token stream stands for the lexer output; Chunk keeps the code bytes
and the constant pool (the parallel line array adds nothing to the claims
and is omitted).  Number constants are represented by the text handed to
strtod (strtod itself is libc), string constants by their characters. -/

/-- Precedence levels, in the order of the C enum. -/
def PREC_NONE : Nat := 0
def PREC_ASSIGNMENT : Nat := 1
def PREC_OR : Nat := 2
def PREC_AND : Nat := 3
def PREC_EQUALITY : Nat := 4
def PREC_COMPARISON : Nat := 5
def PREC_TERM : Nat := 6
def PREC_FACTOR : Nat := 7
def PREC_UNARY : Nat := 8
def PREC_CALL : Nat := 9
def PREC_PRIMARY : Nat := 10

/-- Opcode byte values, in the order of the OpCode enum of src/src/chunk.h. -/
def OP_RETURN : Nat := 0
def OP_TRUE : Nat := 1
def OP_FALSE : Nat := 2
def OP_NIL : Nat := 3
def OP_CONSTANT : Nat := 4
def OP_DEFINE_GLOBAL : Nat := 5
def OP_GET_GLOBAL : Nat := 6
def OP_SET_GLOBAL : Nat := 7
def OP_GET_LOCAL : Nat := 8
def OP_SET_LOCAL : Nat := 9
def OP_GET_UPVALUE : Nat := 10
def OP_SET_UPVALUE : Nat := 11
def OP_GET_PROPERTY : Nat := 12
def OP_SET_PROPERTY : Nat := 13
def OP_CLOSE_UPVALUE : Nat := 14
def OP_NOT : Nat := 15
def OP_NEGATE : Nat := 16
def OP_ADD : Nat := 17
def OP_SUB : Nat := 18
def OP_MUL : Nat := 19
def OP_DIV : Nat := 20
def OP_GREATER : Nat := 21
def OP_LESS : Nat := 22
def OP_EQUAL : Nat := 23
def OP_POP : Nat := 24
def OP_JUMP : Nat := 25
def OP_JUMP_IF_FALSE : Nat := 26
def OP_LOOP : Nat := 27
def OP_CALL : Nat := 28
def OP_CLOSURE : Nat := 29
def OP_CLASS : Nat := 30
def OP_METHOD : Nat := 31
def OP_INVOKE : Nat := 32
def OP_INHERIT : Nat := 33
def OP_GET_SUPER : Nat := 34
def OP_INVOKE_SUPER : Nat := 35

/-- Embedding of UINT8_MAX as the C sources use it. -/
def UINT8_MAX : Nat := 255

structure Token where
  type : TokenType
  lexeme : List Char
  line : Nat
  deriving DecidableEq

/-- Constant-pool values: a number constant carries the underscore-stripped
text handed to strtod, a string constant its characters. -/
inductive CVal where
  | numC (digits : List Char)
  | strC (chars : List Char)
  deriving DecidableEq

structure Chunk where
  code : List Nat
  constants : List CVal
  deriving DecidableEq

structure CLocal where
  name : List Char
  depth : Int
  is_captured : Bool
  deriving DecidableEq

/-- Parser and compiler state for the script compiler: the pending token
stream, the two-token window, the chunk being filled, the locals array of
the current Compiler, the class-compiler context, and the error flags of
the Parser struct.  fuel_out marks that the embedding ran out of fuel and
is never set in any run the theorems are about. -/
structure PState where
  rest : List Token
  current : Token
  previous : Token
  chunk : Chunk
  locals : List CLocal
  scope_depth : Nat
  klass : Bool
  klass_super : Bool
  had_error : Bool
  panic_mode : Bool
  errors : List String
  fuel_out : Bool
  deriving DecidableEq

/-- Embedding of error_at from src/src/test.c: in panic mode nothing is
reported; otherwise panic mode begins, the message is printed and had_error
is set.  The token argument only shapes the printed location. -/
def error_at (_token : Token) (message : String) (s : PState) : PState :=
  if s.panic_mode then s
  else { s with panic_mode := true, errors := s.errors ++ [message], had_error := true }

/-- Embedding of error from src/src/test.c. -/
def error_ (message : String) (s : PState) : PState := error_at s.previous message s

/-- Embedding of error_at_current from src/src/test.c. -/
def error_at_current (message : String) (s : PState) : PState :=
  error_at s.current message s

/-- Token the lexer reports at end of input. -/
def eof_token : Token := ⟨.TOKEN_EOF, [], 0⟩

/-- Embedding of the token-pulling loop inside advance: take the next lexer
token, reporting and skipping error tokens (whose lexeme carries the
message). -/
def pull_token : List Token → PState → PState
  | [], s => { s with current := eof_token, rest := [] }
  | t :: ts, s =>
    if t.type = .TOKEN_ERROR then
      pull_token ts (error_at_current (String.mk t.lexeme) { s with current := t, rest := ts })
    else { s with current := t, rest := ts }

/-- Embedding of advance from src/src/test.c. -/
def advance (s : PState) : PState := pull_token s.rest { s with previous := s.current }

/-- Embedding of check from src/src/test.c. -/
def check (t : TokenType) (s : PState) : Bool := s.current.type = t

/-- Embedding of match from src/src/test.c (match is a Lean keyword). -/
def match_ (t : TokenType) (s : PState) : Bool × PState :=
  if check t s then (true, advance s) else (false, s)

/-- Embedding of consume from src/src/test.c. -/
def consume (t : TokenType) (message : String) (s : PState) : PState :=
  if s.current.type = t then advance s else error_at_current message s

/-- Embedding of write_chunk from src/src/chunk.c restricted to the code
array (the capacity growth and line array have no observable effect on the
claims). -/
def write_chunk (chunk : Chunk) (byte : Nat) : Chunk :=
  { chunk with code := chunk.code ++ [byte] }

/-- Embedding of emit_byte from src/src/test.c. -/
def emit_byte (byte : Nat) (s : PState) : PState :=
  { s with chunk := write_chunk s.chunk byte }

/-- Embedding of emit_bytes from src/src/test.c. -/
def emit_bytes (byte_1 byte_2 : Nat) (s : PState) : PState :=
  emit_byte byte_2 (emit_byte byte_1 s)

/-- Embedding of add_constant from src/src/chunk.c: append the value to the
constant array and return the index of the appended slot (count - 1). -/
def add_constant (chunk : Chunk) (value : CVal) : Chunk × Nat :=
  ({ chunk with constants := chunk.constants ++ [value] }, chunk.constants.length)

/-- Embedding of make_constant from src/src/test.c: add the constant, and
report an error returning 0 when the index exceeds UINT8_MAX. -/
def make_constant (value : CVal) (s : PState) : PState × Nat :=
  let (ch, constant) := add_constant s.chunk value
  let s1 := { s with chunk := ch }
  if UINT8_MAX < constant then (error_ "Too many constants in one chunk." s1, 0)
  else (s1, constant)

/-- Embedding of emit_constant from src/src/test.c. -/
def emit_constant (value : CVal) (s : PState) : PState :=
  let (s1, c) := make_constant value s
  emit_bytes OP_CONSTANT c s1

/-- Embedding of emit_jump from src/src/test.c: the opcode plus two 0xff
placeholder bytes; returns the offset of the placeholder. -/
def emit_jump (instruction : Nat) (s : PState) : PState × Nat :=
  let s1 := emit_byte instruction s
  let s2 := emit_byte 0xff s1
  let s3 := emit_byte 0xff s2
  (s3, s3.chunk.code.length - 2)

/-- Embedding of patch_jump from src/src/test.c: compute the distance,
report when it exceeds UINT16_MAX, and write the two big-endian bytes (the
C code writes them even after reporting). -/
def patch_jump (offset : Nat) (s : PState) : PState :=
  let jump : Int := (s.chunk.code.length : Int) - (offset : Int) - 2
  let s1 := if (65535 : Int) < jump then error_ "Too much code to jump over." s else s
  { s1 with chunk := { s1.chunk with
      code := ((s1.chunk.code.set offset ((jump.toNat >>> 8) % 256)).set
        (offset + 1) (jump.toNat % 256)) } }

/-- Embedding of identifiers_equal from src/src/test.c: length check plus
memcmp. -/
def identifiers_equal (a b : List Char) : Bool := a = b

/-- Embedding of identifier_constant from src/src/test.c: the identifier
text becomes a string constant (copy_string interns it at compile time;
the pool stores the contents). -/
def identifier_constant (name : Token) (s : PState) : PState × Nat :=
  make_constant (.strC name.lexeme) s

/-- Embedding of add_local from src/src/test.c: when the locals array
already holds UINT8_MAX entries report the error and return without
writing; otherwise append an uninitialized (depth -1) local. -/
def add_local (name : Token) (s : PState) : PState :=
  if s.locals.length = UINT8_MAX then
    error_ "Too many local variables in scope." s
  else
    { s with locals := s.locals ++ [⟨name.lexeme, -1, false⟩] }

/-- Embedding of resolve_local from src/src/test.c: search the locals from
the top of the array down; on a hit with depth -1 report the
own-initializer error; return the array index, or -1. -/
def resolve_local (s : PState) (name : Token) : PState × Int :=
  match s.locals.enum.reverse.find? (fun p => identifiers_equal name.lexeme p.2.name) with
  | some (i, l) =>
    (if l.depth = -1 then
       error_ "Can\x27t read local variable in its own initializer." s
     else s,
     (i : Int))
  | none => (s, -1)

/-- Embedding of resolve_upvalue from src/src/test.c at the script level:
the script Compiler has enclosing NULL, so the first line returns -1. -/
def resolve_upvalue (s : PState) (_name : Token) : PState × Int := (s, -1)

/-- Embedding of synthetic_token from src/src/test.c (the C struct leaves
the type field unset; it is never read, and the embedding fixes it as an
identifier). -/
def synthetic_token (text : String) : Token := ⟨.TOKEN_IDENTIFIER, text.toList, 0⟩

/-- The prefix parse functions of the rules table of src/src/test.c. -/
inductive PreFn where
  | grouping | unary | variable_ | number_ | literal | string_ | this_ | super_
  deriving DecidableEq

/-- The infix parse functions of the rules table of src/src/test.c. -/
inductive InFn where
  | binary | call_ | dot | and_ | or_
  deriving DecidableEq

structure ParseRule where
  pre : Option PreFn
  inf : Option InFn
  prec : Nat

/-- Embedding of the rules table and get_rule from src/src/test.c, entry by
entry. -/
def get_rule : TokenType → ParseRule
  | .TOKEN_LEFT_PAREN => ⟨some .grouping, some .call_, PREC_CALL⟩
  | .TOKEN_RIGHT_PAREN => ⟨none, none, PREC_NONE⟩
  | .TOKEN_LEFT_BRACE => ⟨none, none, PREC_NONE⟩
  | .TOKEN_RIGHT_BRACE => ⟨none, none, PREC_NONE⟩
  | .TOKEN_COMMA => ⟨none, none, PREC_NONE⟩
  | .TOKEN_DOT => ⟨none, some .dot, PREC_CALL⟩
  | .TOKEN_MINUS => ⟨some .unary, some .binary, PREC_TERM⟩
  | .TOKEN_PLUS => ⟨some .unary, some .binary, PREC_TERM⟩
  | .TOKEN_SEMICOLON => ⟨none, none, PREC_NONE⟩
  | .TOKEN_STAR => ⟨none, some .binary, PREC_FACTOR⟩
  | .TOKEN_SLASH => ⟨none, some .binary, PREC_FACTOR⟩
  | .TOKEN_BANG => ⟨some .unary, none, PREC_NONE⟩
  | .TOKEN_EQUAL => ⟨none, none, PREC_NONE⟩
  | .TOKEN_BANG_EQUAL => ⟨none, some .binary, PREC_EQUALITY⟩
  | .TOKEN_EQUAL_EQUAL => ⟨none, some .binary, PREC_EQUALITY⟩
  | .TOKEN_GREATER => ⟨none, some .binary, PREC_COMPARISON⟩
  | .TOKEN_GREATER_EQUAL => ⟨none, some .binary, PREC_COMPARISON⟩
  | .TOKEN_LESS => ⟨none, some .binary, PREC_COMPARISON⟩
  | .TOKEN_LESS_EQUAL => ⟨none, some .binary, PREC_COMPARISON⟩
  | .TOKEN_IDENTIFIER => ⟨some .variable_, none, PREC_NONE⟩
  | .TOKEN_STRING => ⟨some .string_, none, PREC_NONE⟩
  | .TOKEN_FLOAT64 => ⟨some .number_, none, PREC_NONE⟩
  | .TOKEN_INT => ⟨some .number_, none, PREC_NONE⟩
  | .TOKEN_AND => ⟨none, some .and_, PREC_AND⟩
  | .TOKEN_BREAK => ⟨none, none, PREC_NONE⟩
  | .TOKEN_CLASS => ⟨none, none, PREC_NONE⟩
  | .TOKEN_ELSE => ⟨none, none, PREC_NONE⟩
  | .TOKEN_FALSE => ⟨some .literal, none, PREC_NONE⟩
  | .TOKEN_FOR => ⟨none, none, PREC_NONE⟩
  | .TOKEN_FUN => ⟨none, none, PREC_NONE⟩
  | .TOKEN_IF => ⟨none, none, PREC_NONE⟩
  | .TOKEN_NIL => ⟨some .literal, none, PREC_NONE⟩
  | .TOKEN_OR => ⟨none, some .or_, PREC_OR⟩
  | .TOKEN_RETURN => ⟨none, none, PREC_NONE⟩
  | .TOKEN_SUPER => ⟨some .super_, none, PREC_NONE⟩
  | .TOKEN_THIS => ⟨some .this_, none, PREC_NONE⟩
  | .TOKEN_TRUE => ⟨some .literal, none, PREC_NONE⟩
  | .TOKEN_VAR => ⟨none, none, PREC_NONE⟩
  | .TOKEN_WHILE => ⟨none, none, PREC_NONE⟩
  | .TOKEN_ERROR => ⟨none, none, PREC_NONE⟩
  | .TOKEN_EOF => ⟨none, none, PREC_NONE⟩

/-- Embedding of string from src/src/test.c: the literal without its
quotes becomes a constant; the source calls make_constant and then
emit_constant, each of which adds the value to the pool. -/
def string_pre (s : PState) : PState :=
  let value : CVal := .strC ((s.previous.lexeme.drop 1).dropLast)
  let (s1, _) := make_constant value s
  emit_constant value s1

/-! ### The Pratt parser (src/src/test.c, parse_precedence and the parse
functions)

The C functions are mutually recursive through the rules table; the
embedding adds a fuel argument that strictly decreases at every call, and a
run that exhausts the fuel sets fuel_out.  Every theorem below supplies
enough fuel that fuel_out stays false. -/

mutual

/-- Embedding of parse_precedence from src/src/test.c: advance, dispatch
the prefix rule (reporting when there is none), run the infix loop, and
when assignment was permitted but an equals sign remains report the invalid
assignment target. -/
def parse_precedence : Nat → Nat → PState → PState
  | 0, _, s => { s with fuel_out := true }
  | n + 1, prec, s =>
    let s1 := advance s
    match (get_rule s1.previous.type).pre with
    | none => error_ "Expect expression." s1
    | some pf =>
      let can_assign : Bool := decide (prec ≤ PREC_ASSIGNMENT)
      let s2 := run_pre n pf can_assign s1
      let s3 := infix_loop n prec can_assign s2
      if can_assign then
        let (m, s4) := match_ .TOKEN_EQUAL s3
        if m then error_ "Invalid assignment target." s4 else s4
      else s3

/-- Embedding of the while loop of parse_precedence: as long as the current
token has an infix rule of at least the requested precedence, advance and
dispatch it.  (Every token whose table precedence is nonzero has an infix
function, so the none branch is unreachable.) -/
def infix_loop : Nat → Nat → Bool → PState → PState
  | 0, _, _, s => { s with fuel_out := true }
  | n + 1, prec, can_assign, s =>
    if prec ≤ (get_rule s.current.type).prec then
      let s1 := advance s
      match (get_rule s1.previous.type).inf with
      | some f => infix_loop n prec can_assign (run_inf n f can_assign s1)
      | none => s1
    else s

/-- Dispatch of the prefix parse functions of src/src/test.c, each body
embedded in place: grouping, unary, variable, number, literal, string,
this and super. -/
def run_pre : Nat → PreFn → Bool → PState → PState
  | 0, _, _, s => { s with fuel_out := true }
  | n + 1, pf, can_assign, s =>
    match pf with
    | .grouping =>
      let s1 := parse_precedence n PREC_ASSIGNMENT s
      consume .TOKEN_RIGHT_PAREN "Expect \x27)\x27 after expression." s1
    | .unary =>
      let operator_type := s.previous.type
      let s1 := parse_precedence n PREC_UNARY s
      (match operator_type with
       | .TOKEN_MINUS => emit_byte OP_NEGATE s1
       | .TOKEN_BANG => emit_byte OP_NOT s1
       | _ => s1)
    | .variable_ => named_variable n s.previous can_assign s
    | .number_ => emit_constant (.numC (str_to_d s.previous.lexeme)) s
    | .literal =>
      (match s.previous.type with
       | .TOKEN_FALSE => emit_byte OP_FALSE s
       | .TOKEN_TRUE => emit_byte OP_TRUE s
       | .TOKEN_NIL => emit_byte OP_NIL s
       | _ => s)
    | .string_ => string_pre s
    | .this_ =>
      if !s.klass then error_ "Can\x27t use \x27this\x27 outside of a class." s
      else named_variable n s.previous false s
    | .super_ =>
      let s1 :=
        if !s.klass then error_ "Can\x27t use \x27super\x27 outside of a class." s
        else if !s.klass_super then
          error_ "Can\x27t use \x27super\x27 in a class that has no superclass." s
        else s
      let s2 := consume .TOKEN_DOT "Expect \x27.\x27 after \x27super\x27." s1
      let s3 := consume .TOKEN_IDENTIFIER "Expect superclass method name" s2
      let (s4, name) := identifier_constant s3.previous s3
      let s5 := named_variable n (synthetic_token "this") false s4
      let (m, s6) := match_ .TOKEN_LEFT_PAREN s5
      if m then
        let (s7, arg_count) := argument_list n s6
        let s8 := named_variable n (synthetic_token "super") false s7
        emit_byte arg_count (emit_bytes OP_INVOKE_SUPER name s8)
      else
        let s7 := named_variable n (synthetic_token "super") false s6
        emit_bytes OP_GET_SUPER name s7

/-- Dispatch of the infix parse functions of src/src/test.c, each body
embedded in place: binary, call, dot, and, or. -/
def run_inf : Nat → InFn → Bool → PState → PState
  | 0, _, _, s => { s with fuel_out := true }
  | n + 1, f, can_assign, s =>
    match f with
    | .binary =>
      let operator_type := s.previous.type
      let rule := get_rule operator_type
      let s1 := parse_precedence n (rule.prec + 1) s
      (match operator_type with
       | .TOKEN_PLUS => emit_byte OP_ADD s1
       | .TOKEN_MINUS => emit_byte OP_SUB s1
       | .TOKEN_STAR => emit_byte OP_MUL s1
       | .TOKEN_SLASH => emit_byte OP_DIV s1
       | .TOKEN_EQUAL_EQUAL => emit_byte OP_EQUAL s1
       | .TOKEN_BANG_EQUAL => emit_bytes OP_EQUAL OP_NOT s1
       | .TOKEN_GREATER => emit_byte OP_GREATER s1
       | .TOKEN_GREATER_EQUAL => emit_bytes OP_LESS OP_NOT s1
       | .TOKEN_LESS => emit_byte OP_LESS s1
       | .TOKEN_LESS_EQUAL => emit_bytes OP_GREATER OP_NOT s1
       | _ => s1)
    | .call_ =>
      let (s1, arg_count) := argument_list n s
      emit_bytes OP_CALL arg_count s1
    | .dot =>
      let s1 := consume .TOKEN_IDENTIFIER "Expect property name after \x27.\x27." s
      let (s2, name) := identifier_constant s1.previous s1
      let (m, s3) := (if can_assign then match_ .TOKEN_EQUAL s2 else (false, s2))
      if m then
        let s4 := parse_precedence n PREC_ASSIGNMENT s3
        emit_bytes OP_SET_PROPERTY name s4
      else
        let (m2, s4) := match_ .TOKEN_LEFT_PAREN s3
        if m2 then
          let (s5, arg_count) := argument_list n s4
          emit_byte arg_count (emit_bytes OP_INVOKE name s5)
        else emit_bytes OP_GET_PROPERTY name s4
    | .and_ =>
      let (s1, end_jump) := emit_jump OP_JUMP_IF_FALSE s
      let s2 := emit_byte OP_POP s1
      let s3 := parse_precedence n PREC_AND s2
      patch_jump end_jump s3
    | .or_ =>
      let (s1, else_jump) := emit_jump OP_JUMP_IF_FALSE s
      let (s2, end_jump) := emit_jump OP_JUMP s1
      let s3 := patch_jump else_jump s2
      let s4 := emit_byte OP_POP s3
      let s5 := parse_precedence n PREC_OR s4
      patch_jump end_jump s5

/-- Embedding of named_variable from src/src/test.c: resolve as a local,
then as an upvalue, else fall back to a global by name; then emit the set
instruction (after compiling the assigned expression) when assignment is
permitted and an equals sign follows, else the get instruction.  The
operand is the (uint8_t) cast of the resolved index. -/
def named_variable : Nat → Token → Bool → PState → PState
  | 0, _, _, s => { s with fuel_out := true }
  | n + 1, name, can_assign, s =>
    let (s1, arg0) := resolve_local s name
    let t : PState × Nat × Nat × Nat :=
      if arg0 ≠ -1 then (s1, OP_SET_LOCAL, OP_GET_LOCAL, arg0.toNat % 256)
      else
        let (s2, arg1) := resolve_upvalue s1 name
        if arg1 ≠ -1 then (s2, OP_SET_UPVALUE, OP_GET_UPVALUE, arg1.toNat % 256)
        else
          let (s3, argg) := identifier_constant name s2
          (s3, OP_SET_GLOBAL, OP_GET_GLOBAL, argg % 256)
    match t with
    | (s4, set_op, get_op, arg) =>
      let (m, s5) := (if can_assign then match_ .TOKEN_EQUAL s4 else (false, s4))
      if m then
        let s6 := parse_precedence n PREC_ASSIGNMENT s5
        emit_bytes set_op arg s6
      else emit_bytes get_op arg s5

/-- Embedding of argument_list from src/src/test.c: an empty list consumes
just the closing parenthesis, otherwise the do-while loop runs. -/
def argument_list : Nat → PState → PState × Nat
  | 0, s => ({ s with fuel_out := true }, 0)
  | n + 1, s =>
    if check .TOKEN_RIGHT_PAREN s then
      (consume .TOKEN_RIGHT_PAREN "Expect \x27)\x27 after arguments" s, 0)
    else
      let (s1, arg_count) := argument_loop n 0 s
      (consume .TOKEN_RIGHT_PAREN "Expect \x27)\x27 after arguments" s1, arg_count)

/-- Embedding of the do-while body of argument_list: compile an argument,
report past 255 arguments, and continue while a comma follows. -/
def argument_loop : Nat → Nat → PState → PState × Nat
  | 0, _, s => ({ s with fuel_out := true }, 0)
  | n + 1, arg_count, s =>
    let s1 := parse_precedence n PREC_ASSIGNMENT s
    let s2 := if arg_count = 255 then
        error_ "Can\x27t have more than 255 arguments." s1
      else s1
    let (m, s3) := match_ .TOKEN_COMMA s2
    if m then argument_loop n (arg_count + 1) s3 else (s3, arg_count + 1)

end

/-- Embedding of expression from src/src/test.c. -/
def expression (fuel : Nat) (s : PState) : PState :=
  parse_precedence fuel PREC_ASSIGNMENT s

/-- Parser state at the start of compile() for a script: init_compiler has
installed the reserved slot-0 local (named this for every kind other than
TYPE_FUNCTION), the error flags are clear, and no class compiler is
active. -/
def init_pstate (toks : List Token) : PState :=
  { rest := toks, current := eof_token, previous := eof_token,
    chunk := ⟨[], []⟩,
    locals := [⟨String.toList "this", 0, false⟩],
    scope_depth := 0, klass := false, klass_super := false,
    had_error := false, panic_mode := false, errors := [], fuel_out := false }

/-- Compile a single expression the way compile() reaches one: the initial
advance followed by expression(). -/
def compile_expression (fuel : Nat) (toks : List Token) : PState :=
  expression fuel (advance (init_pstate toks))

/-! ### Specification-side helpers for the theorems -/

/-- The open-upvalue list sorted by strictly decreasing stack address
(spec invariant 4). -/
def upv_sorted (l : List Upv) : Prop :=
  l.Pairwise (fun a b => b.location < a.location)

/-- Binary operators of the expression family used to compare compiling
an expression with and without a leading plus sign. -/
inductive BOp where
  | addB | subB | mulB | divB | eqB | neB | gtB | geB | ltB | leB
  deriving DecidableEq

/-- The token kind of each binary operator. -/
def BOp.token : BOp → TokenType
  | .addB => .TOKEN_PLUS
  | .subB => .TOKEN_MINUS
  | .mulB => .TOKEN_STAR
  | .divB => .TOKEN_SLASH
  | .eqB => .TOKEN_EQUAL_EQUAL
  | .neB => .TOKEN_BANG_EQUAL
  | .gtB => .TOKEN_GREATER
  | .geB => .TOKEN_GREATER_EQUAL
  | .ltB => .TOKEN_LESS
  | .leB => .TOKEN_LESS_EQUAL

/-- The bytes binary() emits for each operator. -/
def BOp.bytes : BOp → List Nat
  | .addB => [OP_ADD]
  | .subB => [OP_SUB]
  | .mulB => [OP_MUL]
  | .divB => [OP_DIV]
  | .eqB => [OP_EQUAL]
  | .neB => [OP_EQUAL, OP_NOT]
  | .gtB => [OP_GREATER]
  | .geB => [OP_LESS, OP_NOT]
  | .ltB => [OP_LESS]
  | .leB => [OP_GREATER, OP_NOT]

/-- Assignment-free expressions: literals, global variable reads, the three
prefix operators and parenthesized binary expressions.  Binary expressions
are written inside parentheses so every expression is consumed entirely by
its prefix rule, which is what the compiled-code comparison quantifies
over. -/
inductive SExp where
  | numE (ds : List Char)
  | trueE
  | falseE
  | nilE
  | varE (nm : List Char)
  | negE (e : SExp)
  | notE (e : SExp)
  | posE (e : SExp)
  | binE (e1 : SExp) (op : BOp) (e2 : SExp)
  deriving DecidableEq

/-- Token stream of an expression of the family. -/
def SExp.toks : SExp → List Token
  | .numE ds => [⟨.TOKEN_INT, ds, 1⟩]
  | .trueE => [⟨.TOKEN_TRUE, String.toList "true", 1⟩]
  | .falseE => [⟨.TOKEN_FALSE, String.toList "false", 1⟩]
  | .nilE => [⟨.TOKEN_NIL, String.toList "nil", 1⟩]
  | .varE nm => [⟨.TOKEN_IDENTIFIER, nm, 1⟩]
  | .negE e => ⟨.TOKEN_MINUS, ['-'], 1⟩ :: e.toks
  | .notE e => ⟨.TOKEN_BANG, ['!'], 1⟩ :: e.toks
  | .posE e => ⟨.TOKEN_PLUS, ['+'], 1⟩ :: e.toks
  | .binE e1 op e2 =>
    ⟨.TOKEN_LEFT_PAREN, ['('], 1⟩ ::
      (e1.toks ++ ⟨op.token, [], 1⟩ :: (e2.toks ++ [⟨.TOKEN_RIGHT_PAREN, [')'], 1⟩]))

/-- First token of an expression of the family. -/
def SExp.headTok : SExp → Token
  | .numE ds => ⟨.TOKEN_INT, ds, 1⟩
  | .trueE => ⟨.TOKEN_TRUE, String.toList "true", 1⟩
  | .falseE => ⟨.TOKEN_FALSE, String.toList "false", 1⟩
  | .nilE => ⟨.TOKEN_NIL, String.toList "nil", 1⟩
  | .varE nm => ⟨.TOKEN_IDENTIFIER, nm, 1⟩
  | .negE _ => ⟨.TOKEN_MINUS, ['-'], 1⟩
  | .notE _ => ⟨.TOKEN_BANG, ['!'], 1⟩
  | .posE _ => ⟨.TOKEN_PLUS, ['+'], 1⟩
  | .binE _ _ _ => ⟨.TOKEN_LEFT_PAREN, ['('], 1⟩

/-- Last token of an expression of the family. -/
def SExp.lastTok : SExp → Token
  | .numE ds => ⟨.TOKEN_INT, ds, 1⟩
  | .trueE => ⟨.TOKEN_TRUE, String.toList "true", 1⟩
  | .falseE => ⟨.TOKEN_FALSE, String.toList "false", 1⟩
  | .nilE => ⟨.TOKEN_NIL, String.toList "nil", 1⟩
  | .varE nm => ⟨.TOKEN_IDENTIFIER, nm, 1⟩
  | .negE e => e.lastTok
  | .notE e => e.lastTok
  | .posE e => e.lastTok
  | .binE _ _ _ => ⟨.TOKEN_RIGHT_PAREN, [')'], 1⟩

/-- The prefix rule the head token of the expression dispatches to. -/
def SExp.pfn : SExp → PreFn
  | .numE _ => .number_
  | .trueE => .literal
  | .falseE => .literal
  | .nilE => .literal
  | .varE _ => .variable_
  | .negE _ => .unary
  | .notE _ => .unary
  | .posE _ => .unary
  | .binE _ _ _ => .grouping

/-- Constants the compiler appends for the expression, in order. -/
def SExp.consts : SExp → List CVal
  | .numE ds => [.numC (str_to_d ds)]
  | .trueE => []
  | .falseE => []
  | .nilE => []
  | .varE nm => [.strC nm]
  | .negE e => e.consts
  | .notE e => e.consts
  | .posE e => e.consts
  | .binE e1 _ e2 => e1.consts ++ e2.consts

/-- Code bytes the compiler emits for the expression when the constant
pool already holds n values. -/
def SExp.code : SExp → Nat → List Nat
  | .numE _, n => [OP_CONSTANT, n]
  | .trueE, _ => [OP_TRUE]
  | .falseE, _ => [OP_FALSE]
  | .nilE, _ => [OP_NIL]
  | .varE _, n => [OP_GET_GLOBAL, n]
  | .negE e, n => e.code n ++ [OP_NEGATE]
  | .notE e, n => e.code n ++ [OP_NOT]
  | .posE e, n => e.code n
  | .binE e1 op e2, n => e1.code n ++ (e2.code (n + e1.consts.length) ++ op.bytes)

/-- Well-formed family expressions: variable names are nonempty (the lexer
produces no empty identifier) and differ from this (the lexer tokenizes
this as a keyword), so none collides with the reserved slot-0 local. -/
def SExp.wfb : SExp → Bool
  | .numE _ => true
  | .trueE => true
  | .falseE => true
  | .nilE => true
  | .varE nm => !(decide (nm = [])) && !(decide (nm = String.toList "this"))
  | .negE e => e.wfb
  | .notE e => e.wfb
  | .posE e => e.wfb
  | .binE e1 _ e2 => e1.wfb && e2.wfb

/-- Fuel sufficient for the parse of a family expression. -/
def SExp.need : SExp → Nat
  | .numE _ => 2
  | .trueE => 2
  | .falseE => 2
  | .nilE => 2
  | .varE _ => 2
  | .negE e => e.need + 3
  | .notE e => e.need + 3
  | .posE e => e.need + 3
  | .binE e1 _ e2 => e1.need + e2.need + 8

/-- Specification of the prefix phase of the Pratt parser on a family
expression: with the expression head already in previous and the remaining
stream carrying the rest of the expression followed by a stopper token rh,
the dispatched prefix rule consumes exactly the expression, emits its code
and constants, and stops with rh current.  The stopper must bind looser
than unary, must not be an equals sign (so the can_assign flag is
irrelevant) and must not be an error token. -/
def RunPreSpec (e : SExp) : Prop :=
  ∀ (fuel : Nat) (ca : Bool) (s : PState) (rh : Token) (rt : List Token),
    e.wfb = true →
    e.need ≤ fuel →
    s.previous = e.headTok →
    s.current = (e.toks.tail ++ rh :: rt).headD eof_token →
    s.rest = (e.toks.tail ++ rh :: rt).tail →
    s.locals = [⟨String.toList "this", 0, false⟩] →
    s.chunk.constants.length + e.consts.length ≤ 256 →
    (get_rule rh.type).prec ≤ 7 →
    rh.type ≠ .TOKEN_EQUAL →
    rh.type ≠ .TOKEN_ERROR →
    run_pre fuel e.pfn ca s =
      { s with previous := e.lastTok, current := rh, rest := rt,
               chunk := ⟨s.chunk.code ++ e.code s.chunk.constants.length,
                         s.chunk.constants ++ e.consts⟩ }

/-- Specification of a full parse_precedence call on a family expression:
with the expression about to be read (its head token current) and a
stopper rh binding looser than the requested precedence, the call consumes
exactly the expression and stops with rh current. -/
def ParsePrecSpec (e : SExp) : Prop :=
  ∀ (fuel prec : Nat) (s : PState) (rh : Token) (rt : List Token),
    e.wfb = true →
    e.need + 2 ≤ fuel →
    1 ≤ prec →
    prec ≤ PREC_UNARY →
    s.current = e.headTok →
    s.rest = e.toks.tail ++ rh :: rt →
    s.locals = [⟨String.toList "this", 0, false⟩] →
    s.chunk.constants.length + e.consts.length ≤ 256 →
    (get_rule rh.type).prec < prec →
    rh.type ≠ .TOKEN_EQUAL →
    rh.type ≠ .TOKEN_ERROR →
    parse_precedence fuel prec s =
      { s with previous := e.lastTok, current := rh, rest := rt,
               chunk := ⟨s.chunk.code ++ e.code s.chunk.constants.length,
                         s.chunk.constants ++ e.consts⟩ }

/-! ## Theorems -/

/-- C6: the hash stored for a String is not the FNV-1a hash the
specification describes.  The fold of hash_string starts from 216613626,
which drops the final digit of the FNV-1a offset basis 2166136261, while
the comment in the source names the algorithm FNV-1a; on the empty string
the stored hash is the starting constant itself and differs from the
FNV-1a value, and the same holds on the one-byte string a. -/
theorem c6_hash_string_not_fnv1a :
    hash_string [] = 216613626 ∧
    fnv1a32 [] = 2166136261 ∧
    hash_string [] ≠ fnv1a32 [] ∧
    hash_string ['a'] = ((216613626 ^^^ 97) * 16777619) % 4294967296 ∧
    hash_string ['a'] ≠ fnv1a32 ['a'] := by
  refine ⟨rfl, rfl, by decide, rfl, by decide⟩

/-- C1: calling a class whose method table has no init entry.  With zero
arguments the call succeeds and the callee slot now holds a fresh Instance
of the class, as claimed.  With one argument, however, call_value raises
the runtime error (its text is the misspelled Exected 0 arguments but got
1.) and then returns true, because the source lacks a return false on that
path; OP_CALL therefore does not return INTERPRET_RUNTIME_ERROR and the
interpreter continues on the reset stack, against the claim that interpret
returns RuntimeError. -/
theorem c1_class_call_without_init :
    (op_call_step 0 ⟨[.classV ['A'] []], 1, 0, []⟩ =
      (none, ⟨[.instanceV ['A'] 0], 1, 1, []⟩)) ∧
    ((call_value (.classV ['A'] []) 1 ⟨[.num 1, .classV ['A'] []], 1, 0, []⟩).1 = true) ∧
    ((call_value (.classV ['A'] []) 1 ⟨[.num 1, .classV ['A'] []], 1, 0, []⟩).2.error_msgs =
      ["Exected 0 arguments but got 1."]) ∧
    (op_call_step 1 ⟨[.num 1, .classV ['A'] []], 1, 0, []⟩ =
      (none, ⟨[], 0, 1, ["Exected 0 arguments but got 1."]⟩)) :=
  ⟨rfl, rfl, rfl, rfl⟩

/-- Helper: the size_t update of bytes_allocated equals the plain
subtraction when no wraparound occurs. -/
theorem size_t_add_sub (x old : Nat) (h1 : old ≤ x) (h2 : x < SIZE_T_MOD) :
    (x + (SIZE_T_MOD - old % SIZE_T_MOD)) % SIZE_T_MOD = x - old := by
  have hom : old % SIZE_T_MOD = old := Nat.mod_eq_of_lt (lt_of_le_of_lt h1 h2)
  rw [hom]
  have hx : x + (SIZE_T_MOD - old) = SIZE_T_MOD + (x - old) := by
    have hle : old ≤ SIZE_T_MOD := le_of_lt (lt_of_le_of_lt h1 h2)
    omega
  rw [hx, Nat.add_mod_left]
  exact Nat.mod_eq_of_lt (by omega)

/-- C3: allocations are accounted by reallocate; starting from the initial
1 MiB threshold, a collection runs exactly when the updated bytes_allocated
counter exceeds next_gc, or unconditionally on growth under the stress
flag; and every collection sets next_gc to the surviving byte count times
the factor 3/2, computed in integer size_t arithmetic as the macro
GC_HEAP_GROW_FACTOR = 3/2 expands it. -/
theorem c3_gc_trigger_and_growth (stress : Bool)
    (old_size new_size freed1 freed2 : Nat) (st : GcSt)
    (h1 : old_size ≤ st.bytes_allocated + new_size)
    (h2 : st.bytes_allocated + new_size < SIZE_T_MOD) :
    init_vm_gc.bytes_allocated = 0 ∧
    init_vm_gc.next_gc = 1024 * 1024 ∧
    ((reallocate stress old_size new_size freed1 freed2 st).collections ≠ st.collections ↔
      ((stress = true ∧ old_size < new_size) ∨
        st.next_gc < st.bytes_allocated + new_size - old_size)) ∧
    (∀ freed (st2 : GcSt), (collect_garbage freed st2).next_gc =
      (st2.bytes_allocated - freed) * 3 % SIZE_T_MOD / 2) := by
  refine ⟨rfl, rfl, ?_, fun freed st2 => rfl⟩
  have hupd : (st.bytes_allocated + new_size + (SIZE_T_MOD - old_size % SIZE_T_MOD))
      % SIZE_T_MOD = st.bytes_allocated + new_size - old_size :=
    size_t_add_sub _ _ h1 h2
  have hcc : ∀ (f : Nat) (s2 : GcSt),
      (collect_garbage f s2).collections = s2.collections + 1 := fun _ _ => rfl
  unfold reallocate
  simp only [hupd]
  by_cases hs : stress = true ∧ old_size < new_size
  · have hb : (stress && decide (old_size < new_size)) = true := by
      simp [hs.1, hs.2]
    simp only [hb, if_true]
    constructor
    · intro _; exact Or.inl hs
    · intro _
      split <;> simp only [hcc] <;> omega
  · have hb : (stress && decide (old_size < new_size)) = false := by
      cases stress with
      | false => simp
      | true =>
        simp only [Bool.true_and, decide_eq_false_iff_not]
        intro hlt
        exact hs ⟨rfl, hlt⟩
    simp only [hb, Bool.false_eq_true, if_false]
    constructor
    · intro hne
      refine Or.inr ?_
      by_contra hnot
      apply hne
      rw [if_neg]
      exact hnot
    · rintro (h | h)
      · exact absurd h hs
      · rw [if_pos h]
        simp only [hcc]
        omega

/-- Helper: behaviour of take_string on a well-formed intern table: the
returned String has the requested contents and hash, is interned, keeps the
table well formed, is the only stored String with those contents, and a
repeated call returns the identical object without changing the table. -/
theorem take_string_spec (c : List Char) (st : InternSt) (hwf : InternWF st) :
    (take_string c st).1.chars = c ∧
    (take_string c st).1.hash = hash_string c ∧
    (take_string c st).1 ∈ (take_string c st).2.pool ∧
    InternWF (take_string c st).2 ∧
    (∀ o ∈ (take_string c st).2.pool, o.chars = c → o = (take_string c st).1) ∧
    take_string c (take_string c st).2 = ((take_string c st).1, (take_string c st).2) := by
  rcases hfind : table_find_string st.pool c c.length (hash_string c) with - | o
  · -- not interned yet: allocate
    have hres : take_string c st = (⟨st.next_id, c, hash_string c⟩,
        ⟨⟨st.next_id, c, hash_string c⟩ :: st.pool, st.next_id + 1⟩) := by
      simp [take_string, hfind, allocate_string]
    have hnone := List.find?_eq_none.mp hfind
    have hnochars : ∀ o2 ∈ st.pool, o2.chars ≠ c := by
      intro o2 ho2 hch
      have := hnone o2 ho2
      simp only [Bool.and_eq_true, decide_eq_true_eq] at this
      exact this ⟨⟨by rw [hch], by rw [hwf.1 o2 ho2, hch]⟩, hch⟩
    rw [hres]
    refine ⟨rfl, rfl, List.mem_cons_self _ _, ⟨?_, ?_⟩, ?_, ?_⟩
    · intro o2 ho2
      rcases List.mem_cons.mp ho2 with rfl | h2
      · rfl
      · exact hwf.1 o2 h2
    · intro o1 h1 o2 h2 hch
      rcases List.mem_cons.mp h1 with rfl | h1b <;>
        rcases List.mem_cons.mp h2 with rfl | h2b
      · rfl
      · exact absurd hch.symm (hnochars o2 h2b)
      · exact absurd hch (hnochars o1 h1b)
      · exact hwf.2 o1 h1b o2 h2b hch
    · intro o2 ho2 hch
      rcases List.mem_cons.mp ho2 with rfl | h2
      · rfl
      · exact absurd hch (hnochars o2 h2)
    · simp [take_string, table_find_string, List.find?_cons]
  · -- already interned
    have hpred := List.find?_some hfind
    have hmem := List.mem_of_find?_eq_some hfind
    simp only [Bool.and_eq_true, decide_eq_true_eq] at hpred
    have hres : take_string c st = (o, st) := by
      simp [take_string, hfind]
    rw [hres]
    refine ⟨hpred.2, by rw [hpred.1.2], hmem, hwf, ?_, ?_⟩
    · intro o2 ho2 hch
      exact hwf.2 o2 ho2 o hmem (by rw [hch, hpred.2])
    · simp [take_string, hfind]

/-- C2: string interning.  copy_string and take_string behave identically;
on a well-formed intern table a call returns a String with the requested
contents, interned in the table, and any later call with equal contents
(by either function) returns that same String object; the table never
holds two distinct Strings of equal contents, so string values of equal
contents are reference-identical. -/
theorem c2_interning_unique (st : InternSt) (c : List Char) (hwf : InternWF st) :
    copy_string c st = take_string c st ∧
    (copy_string c st).1.chars = c ∧
    (copy_string c st).1 ∈ (copy_string c st).2.pool ∧
    copy_string c (copy_string c st).2 = ((copy_string c st).1, (copy_string c st).2) ∧
    take_string c (copy_string c st).2 = ((copy_string c st).1, (copy_string c st).2) ∧
    InternWF (copy_string c st).2 ∧
    (∀ o1 ∈ (copy_string c st).2.pool, ∀ o2 ∈ (copy_string c st).2.pool,
      o1.chars = o2.chars → o1 = o2) := by
  have hco : ∀ (c2 : List Char) (st2 : InternSt), copy_string c2 st2 = take_string c2 st2 :=
    fun _ _ => rfl
  have hs := take_string_spec c st hwf
  rw [hco c st]
  exact ⟨rfl, hs.1, hs.2.2.1, by rw [hco]; exact hs.2.2.2.2.2, hs.2.2.2.2.2,
    hs.2.2.2.1, hs.2.2.2.1.2⟩

/-- Witness for C2 at a concrete instance: interning ab twice starting
from the empty table. -/
theorem c2_interning_unique_witness :
    InternWF ⟨[], 0⟩ ∧
    (copy_string ['a', 'b'] ⟨[], 0⟩ = take_string ['a', 'b'] ⟨[], 0⟩ ∧
     (copy_string ['a', 'b'] ⟨[], 0⟩).1.chars = ['a', 'b'] ∧
     (copy_string ['a', 'b'] ⟨[], 0⟩).1 ∈ (copy_string ['a', 'b'] ⟨[], 0⟩).2.pool ∧
     copy_string ['a', 'b'] (copy_string ['a', 'b'] ⟨[], 0⟩).2 =
       ((copy_string ['a', 'b'] ⟨[], 0⟩).1, (copy_string ['a', 'b'] ⟨[], 0⟩).2) ∧
     take_string ['a', 'b'] (copy_string ['a', 'b'] ⟨[], 0⟩).2 =
       ((copy_string ['a', 'b'] ⟨[], 0⟩).1, (copy_string ['a', 'b'] ⟨[], 0⟩).2) ∧
     InternWF (copy_string ['a', 'b'] ⟨[], 0⟩).2 ∧
     (∀ o1 ∈ (copy_string ['a', 'b'] ⟨[], 0⟩).2.pool,
       ∀ o2 ∈ (copy_string ['a', 'b'] ⟨[], 0⟩).2.pool, o1.chars = o2.chars → o1 = o2)) :=
  have hwf : InternWF ⟨[], 0⟩ := ⟨by simp, by simp⟩
  ⟨hwf, c2_interning_unique ⟨[], 0⟩ ['a', 'b'] hwf⟩

/-- Helper: du_span splits its input. -/
theorem du_span_append (cs : List Char) : (du_span cs).1 ++ (du_span cs).2 = cs := by
  induction cs with
  | nil => rfl
  | cons c rest ih =>
    by_cases h : (is_digit c || c = '_') = true
    · rcases hds : du_span rest with ⟨t, r⟩
      have hcs : du_span (c :: rest) = (c :: t, r) := by
        simp [du_span, h, hds]
      rw [hds] at ih
      rw [hcs]
      show (c :: t) ++ r = c :: rest
      rw [List.cons_append, ih]
    · have hcs : du_span (c :: rest) = ([], c :: rest) := by
        simp only [du_span]
        rw [if_neg (by simpa using h)]
      rw [hcs]
      rfl

/-- Helper: du_span takes only digits and underscores. -/
theorem du_span_chars (cs : List Char) : du_chars (du_span cs).1 = true := by
  induction cs with
  | nil => rfl
  | cons c rest ih =>
    by_cases h : (is_digit c || c = '_') = true
    · rcases hds : du_span rest with ⟨t, r⟩
      have hcs : du_span (c :: rest) = (c :: t, r) := by
        simp [du_span, h, hds]
      rw [hds] at ih
      rw [hcs]
      simp only [du_chars, List.all_cons, Bool.and_eq_true]
      exact ⟨h, ih⟩
    · have hcs : du_span (c :: rest) = ([], c :: rest) := by
        simp only [du_span]
        rw [if_neg (by simpa using h)]
      rw [hcs]
      rfl

/-- Helper: du_span on a digit-or-underscore head takes the head. -/
theorem du_span_cons_of_true (c : Char) (cs : List Char)
    (h : (is_digit c || c = '_') = true) :
    du_span (c :: cs) = (c :: (du_span cs).1, (du_span cs).2) := by
  rcases hds : du_span cs with ⟨t, r⟩
  simp [du_span, h, hds]

/-- Helper: the copy loop of str_to_d keeps exactly the non-underscore
characters, in order. -/
theorem str_to_d_go (acc tok : List Char) :
    tok.foldl (fun acc c => if c ≠ '_' then acc ++ [c] else acc) acc =
      acc ++ tok.filter (fun c => c ≠ '_') := by
  induction tok generalizing acc with
  | nil => simp
  | cons c rest ih =>
    simp only [List.foldl_cons, List.filter_cons]
    by_cases h : c = '_'
    · subst h
      rw [if_neg (by simp)]
      rw [ih]
      simp
    · rw [if_pos h]
      rw [ih]
      simp [h]

/-- Helper: str_to_d strips the underscores and nothing else. -/
theorem str_to_d_filter (tok : List Char) :
    str_to_d tok = tok.filter (fun c => c ≠ '_') := by
  unfold str_to_d
  rw [str_to_d_go]
  simp

/-- Helper: behaviour of the exponent half of number(): it consumes a
well-shaped exponent (marker, optional sign, digit-led run of digits and
underscores), reports the exponent error on a malformed one, and otherwise
returns the accumulated characters tagged by has_fraction. -/
theorem number_exp_spec (hf : Bool) (acc cs : List Char) :
    ((number_exp hf acc cs).consumed ++ (number_exp hf acc cs).rest = acc ++ cs) ∧
    ((number_exp hf acc cs).kind = .TOKEN_INT →
      hf = false ∧ (number_exp hf acc cs).consumed = acc ∧
      (number_exp hf acc cs).msg = "") ∧
    ((number_exp hf acc cs).kind = .TOKEN_FLOAT64 →
      (number_exp hf acc cs).msg = "" ∧
      ((hf = true ∧ (number_exp hf acc cs).consumed = acc) ∨
        (∃ ec ed, (ec = 'e' ∨ ec = 'E') ∧ amended_run ed = true ∧
          ((number_exp hf acc cs).consumed = acc ++ ec :: ed ∨
            ∃ sg, (sg = '+' ∨ sg = '-') ∧
              (number_exp hf acc cs).consumed = acc ++ ec :: sg :: ed)))) ∧
    ((number_exp hf acc cs).kind = .TOKEN_ERROR →
      (number_exp hf acc cs).msg = "Expect number after exponent.") ∧
    ((number_exp hf acc cs).kind = .TOKEN_INT ∨
      (number_exp hf acc cs).kind = .TOKEN_FLOAT64 ∨
      (number_exp hf acc cs).kind = .TOKEN_ERROR) := by
  rcases cs with - | ⟨c, r1⟩
  · -- end of input: finish with the accumulated token
    cases hf
    · have hn : number_exp false acc [] = ⟨.TOKEN_INT, "", acc, []⟩ := rfl
      rw [hn]
      exact ⟨by simp, fun _ => ⟨rfl, rfl, rfl⟩, fun h => by simp at h, fun h => by simp at h,
        Or.inl rfl⟩
    · have hn : number_exp true acc [] = ⟨.TOKEN_FLOAT64, "", acc, []⟩ := rfl
      rw [hn]
      exact ⟨by simp, fun h => by simp at h, fun _ => ⟨rfl, Or.inl ⟨rfl, rfl⟩⟩,
        fun h => by simp at h, Or.inr (Or.inl rfl)⟩
  · by_cases he : (c = 'e' || c = 'E') = true
    · have hee : c = 'e' ∨ c = 'E' := by
        rcases Bool.or_eq_true_iff.mp he with h | h
        · exact Or.inl (of_decide_eq_true h)
        · exact Or.inr (of_decide_eq_true h)
      rcases r1 with - | ⟨dd, r2⟩
      · -- nothing after the marker
        have hn : number_exp hf acc [c] =
            ⟨.TOKEN_ERROR, "Expect number after exponent.", acc ++ [c], []⟩ := by
          simp only [number_exp]
          rw [if_pos he]
        rw [hn]
        exact ⟨by simp, fun h => by simp at h, fun h => by simp at h, fun _ => rfl,
          Or.inr (Or.inr rfl)⟩
      · by_cases hdig : is_digit dd = true
        · -- digits right after the marker
          have hn : number_exp hf acc (c :: dd :: r2) =
              ⟨.TOKEN_FLOAT64, "", acc ++ c :: (du_span (dd :: r2)).1,
                (du_span (dd :: r2)).2⟩ := by
            simp only [number_exp]
            rw [if_pos he]
            rcases hds : du_span (dd :: r2) with ⟨ex, r3⟩
            simp [hdig, hds]
          rw [hn]
          refine ⟨?_, fun h => by simp at h, ?_, fun h => by simp at h, Or.inr (Or.inl rfl)⟩
          · show (acc ++ c :: (du_span (dd :: r2)).1) ++ (du_span (dd :: r2)).2 = _
            rw [List.append_assoc, List.cons_append, du_span_append]
          · intro _
            refine ⟨rfl, Or.inr ⟨c, (du_span (dd :: r2)).1, hee, ?_, Or.inl rfl⟩⟩
            rw [du_span_cons_of_true dd r2 (by simp [hdig])]
            simp only [amended_run]
            simp [hdig, du_span_chars]
        · by_cases hsgn : (dd = '+' || dd = '-') = true
          · have hsg : dd = '+' ∨ dd = '-' := by
              rcases Bool.or_eq_true_iff.mp hsgn with h | h
              · exact Or.inl (of_decide_eq_true h)
              · exact Or.inr (of_decide_eq_true h)
            rcases r2 with - | ⟨d2, r3⟩
            · -- sign at end of input
              have hn : number_exp hf acc [c, dd] =
                  ⟨.TOKEN_ERROR, "Expect number after exponent.", acc ++ [c, dd], []⟩ := by
                simp only [number_exp]
                rw [if_pos he]
                simp [hdig, hsgn]
              rw [hn]
              exact ⟨by simp, fun h => by simp at h, fun h => by simp at h, fun _ => rfl,
                Or.inr (Or.inr rfl)⟩
            · by_cases hd2 : is_digit d2 = true
              · have hn : number_exp hf acc (c :: dd :: d2 :: r3) =
                    ⟨.TOKEN_FLOAT64, "", acc ++ c :: dd :: (du_span (d2 :: r3)).1,
                      (du_span (d2 :: r3)).2⟩ := by
                  simp only [number_exp]
                  rw [if_pos he]
                  rcases hds : du_span (d2 :: r3) with ⟨ex, r4⟩
                  simp [hdig, hsgn, hd2, hds]
                rw [hn]
                refine ⟨?_, fun h => by simp at h, ?_, fun h => by simp at h,
                  Or.inr (Or.inl rfl)⟩
                · show (acc ++ c :: dd :: (du_span (d2 :: r3)).1) ++ (du_span (d2 :: r3)).2 = _
                  rw [List.append_assoc, List.cons_append, List.cons_append, du_span_append]
                · intro _
                  refine ⟨rfl, Or.inr ⟨c, (du_span (d2 :: r3)).1, hee, ?_,
                    Or.inr ⟨dd, hsg, rfl⟩⟩⟩
                  rw [du_span_cons_of_true d2 r3 (by simp [hd2])]
                  simp only [amended_run]
                  simp [hd2, du_span_chars]
              · have hn : number_exp hf acc (c :: dd :: d2 :: r3) =
                    ⟨.TOKEN_ERROR, "Expect number after exponent.", acc ++ [c, dd],
                      d2 :: r3⟩ := by
                  simp only [number_exp]
                  rw [if_pos he]
                  simp [hdig, hsgn, hd2]
                rw [hn]
                exact ⟨by simp, fun h => by simp at h, fun h => by simp at h, fun _ => rfl,
                  Or.inr (Or.inr rfl)⟩
          · -- neither digit nor sign after the marker
            have hn : number_exp hf acc (c :: dd :: r2) =
                ⟨.TOKEN_ERROR, "Expect number after exponent.", acc ++ [c], dd :: r2⟩ := by
              simp only [number_exp]
              rw [if_pos he]
              simp [hdig, hsgn]
            rw [hn]
            exact ⟨by simp, fun h => by simp at h, fun h => by simp at h, fun _ => rfl,
              Or.inr (Or.inr rfl)⟩
    · -- no exponent marker: finish with the accumulated token
      cases hf
      · have hn : number_exp false acc (c :: r1) = ⟨.TOKEN_INT, "", acc, c :: r1⟩ := by
          simp only [number_exp]
          rw [if_neg (by simpa using he)]
          simp
        rw [hn]
        exact ⟨by simp, fun _ => ⟨rfl, rfl, rfl⟩, fun h => by simp at h, fun h => by simp at h,
          Or.inl rfl⟩
      · have hn : number_exp true acc (c :: r1) = ⟨.TOKEN_FLOAT64, "", acc, c :: r1⟩ := by
          simp only [number_exp]
          rw [if_neg (by simpa using he)]
          simp
        rw [hn]
        exact ⟨by simp, fun h => by simp at h, fun _ => ⟨rfl, Or.inl ⟨rfl, rfl⟩⟩,
          fun h => by simp at h, Or.inr (Or.inl rfl)⟩

/-- C7 (amended): shape of the number token.  Called after a leading digit
d, the lexer consumes an integral run, an optional fraction and an optional
exponent, where each run is a digit followed by any mix of digits and
underscores (so underscores may repeat and trail, not only sit between
digits); the token is float exactly when a fraction or exponent is
present, else int; a dot not followed by a digit or a malformed exponent
yields an error token with the corresponding message; and str_to_d strips
exactly the underscores before handing the text to strtod. -/
theorem c7_number_rule (cs : List Char) (d : Char) (hd : is_digit d = true) :
    ((number cs).consumed ++ (number cs).rest = cs) ∧
    ((number cs).kind = .TOKEN_INT →
      (number cs).msg = "" ∧ amended_run (d :: (number cs).consumed) = true ∧
      du_chars (number cs).consumed = true) ∧
    ((number cs).kind = .TOKEN_FLOAT64 →
      (number cs).msg = "" ∧
      ∃ i f x, (number cs).consumed = i ++ f ++ x ∧ du_chars i = true ∧
        (f = [] ∨ ∃ fd, f = '.' :: fd ∧ amended_run fd = true) ∧
        (x = [] ∨ ∃ ec ed, (ec = 'e' ∨ ec = 'E') ∧ amended_run ed = true ∧
          (x = ec :: ed ∨ ∃ sg, (sg = '+' ∨ sg = '-') ∧ x = ec :: sg :: ed)) ∧
        (f ≠ [] ∨ x ≠ [])) ∧
    ((number cs).kind = .TOKEN_ERROR →
      (number cs).msg = "Expect digit after decimal point." ∨
      (number cs).msg = "Expect number after exponent.") ∧
    ((number cs).kind = .TOKEN_INT ∨ (number cs).kind = .TOKEN_FLOAT64 ∨
      (number cs).kind = .TOKEN_ERROR) ∧
    (str_to_d (d :: (number cs).consumed) =
      (d :: (number cs).consumed).filter (fun c => c ≠ '_')) := by
  rcases hspan : du_span cs with ⟨i, r1⟩
  have hiapp : i ++ r1 = cs := by
    have := du_span_append cs
    rw [hspan] at this
    exact this
  have hidu : du_chars i = true := by
    have := du_span_chars cs
    rw [hspan] at this
    exact this
  rcases r1 with - | ⟨c1, r2⟩
  · -- integral part only
    have hn : number cs = number_exp false i [] := by
      simp only [number, hspan]
    obtain ⟨s1, s2, s3, s4, s5⟩ := number_exp_spec false i []
    rw [hn]
    refine ⟨by rw [s1]; exact hiapp, ?_, ?_, fun hk => Or.inr (s4 hk), s5, str_to_d_filter _⟩
    · intro hk
      obtain ⟨-, hc, hm⟩ := s2 hk
      rw [hc]
      exact ⟨hm, by simp [amended_run, hd, hidu], hidu⟩
    · intro hk
      obtain ⟨hm, hdis⟩ := s3 hk
      refine ⟨hm, ?_⟩
      rcases hdis with ⟨hfalse, -⟩ | ⟨ec, ed, hee, hrun, hcons⟩
      · exact absurd hfalse (by simp)
      · rcases hcons with hcons | ⟨sg, hsg, hcons⟩
        · exact ⟨i, [], ec :: ed, by rw [hcons]; simp, hidu, Or.inl rfl,
            Or.inr ⟨ec, ed, hee, hrun, Or.inl rfl⟩, Or.inr (by simp)⟩
        · exact ⟨i, [], ec :: sg :: ed, by rw [hcons]; simp, hidu, Or.inl rfl,
            Or.inr ⟨ec, ed, hee, hrun, Or.inr ⟨sg, hsg, rfl⟩⟩, Or.inr (by simp)⟩
  · by_cases hc1 : c1 = '.'
    · subst hc1
      rcases r2 with - | ⟨c2, r3⟩
      · -- dot at end of input
        have hn : number cs =
            ⟨.TOKEN_ERROR, "Expect digit after decimal point.", i ++ ['.'], []⟩ := by
          simp only [number, hspan]
          simp
        rw [hn]
        refine ⟨by simpa using hiapp, fun hk => by simp at hk, fun hk => by simp at hk,
          fun _ => Or.inl rfl, Or.inr (Or.inr rfl), str_to_d_filter _⟩
      · by_cases hd2 : is_digit c2 = true
        · -- fraction present
          rcases hspan2 : du_span (c2 :: r3) with ⟨f, r4⟩
          have hfsplit : f = c2 :: (du_span r3).1 ∧ r4 = (du_span r3).2 := by
            have h2 := du_span_cons_of_true c2 r3 (by simp [hd2])
            rw [hspan2] at h2
            exact ⟨congrArg Prod.fst h2, congrArg Prod.snd h2⟩
          have hfapp : f ++ r4 = c2 :: r3 := by
            have := du_span_append (c2 :: r3)
            rw [hspan2] at this
            exact this
          have hfrun : amended_run f = true := by
            rw [hfsplit.1]
            simp only [amended_run]
            simp [hd2, du_span_chars]
          have hn : number cs = number_exp true (i ++ '.' :: f) r4 := by
            simp only [number, hspan]
            simp [hd2, hspan2]
          obtain ⟨s1, s2, s3, s4, s5⟩ := number_exp_spec true (i ++ '.' :: f) r4
          rw [hn]
          refine ⟨?_, ?_, ?_, fun hk => Or.inr (s4 hk), s5, str_to_d_filter _⟩
          · rw [s1, List.append_assoc, List.cons_append, hfapp]
            exact hiapp
          · intro hk
            obtain ⟨htrue, -, -⟩ := s2 hk
            exact absurd htrue (by simp)
          · intro hk
            obtain ⟨hm, hdis⟩ := s3 hk
            refine ⟨hm, ?_⟩
            rcases hdis with ⟨-, hcons⟩ | ⟨ec, ed, hee, hrun, hcons⟩
            · exact ⟨i, '.' :: f, [], by rw [hcons]; simp, hidu,
                Or.inr ⟨f, rfl, hfrun⟩, Or.inl rfl, Or.inl (by simp)⟩
            · rcases hcons with hcons | ⟨sg, hsg, hcons⟩
              · exact ⟨i, '.' :: f, ec :: ed, by rw [hcons], hidu,
                  Or.inr ⟨f, rfl, hfrun⟩,
                  Or.inr ⟨ec, ed, hee, hrun, Or.inl rfl⟩, Or.inl (by simp)⟩
              · exact ⟨i, '.' :: f, ec :: sg :: ed, by rw [hcons], hidu,
                  Or.inr ⟨f, rfl, hfrun⟩,
                  Or.inr ⟨ec, ed, hee, hrun, Or.inr ⟨sg, hsg, rfl⟩⟩, Or.inl (by simp)⟩
        · -- dot not followed by a digit
          have hn : number cs =
              ⟨.TOKEN_ERROR, "Expect digit after decimal point.", i ++ ['.'], c2 :: r3⟩ := by
            simp only [number, hspan]
            simp [hd2]
          rw [hn]
          refine ⟨?_, fun hk => by simp at hk, fun hk => by simp at hk,
            fun _ => Or.inl rfl, Or.inr (Or.inr rfl), str_to_d_filter _⟩
          show (i ++ ['.']) ++ (c2 :: r3) = cs
          rw [List.append_assoc]
          exact hiapp
    · -- no fraction: straight to the exponent check
      have hn : number cs = number_exp false i (c1 :: r2) := by
        simp only [number, hspan]
        rw [if_neg hc1]
      obtain ⟨s1, s2, s3, s4, s5⟩ := number_exp_spec false i (c1 :: r2)
      rw [hn]
      refine ⟨by rw [s1]; exact hiapp, ?_, ?_, fun hk => Or.inr (s4 hk), s5, str_to_d_filter _⟩
      · intro hk
        obtain ⟨-, hc, hm⟩ := s2 hk
        rw [hc]
        exact ⟨hm, by simp [amended_run, hd, hidu], hidu⟩
      · intro hk
        obtain ⟨hm, hdis⟩ := s3 hk
        refine ⟨hm, ?_⟩
        rcases hdis with ⟨hfalse, -⟩ | ⟨ec, ed, hee, hrun, hcons⟩
        · exact absurd hfalse (by simp)
        · rcases hcons with hcons | ⟨sg, hsg, hcons⟩
          · exact ⟨i, [], ec :: ed, by rw [hcons]; simp, hidu, Or.inl rfl,
              Or.inr ⟨ec, ed, hee, hrun, Or.inl rfl⟩, Or.inr (by simp)⟩
          · exact ⟨i, [], ec :: sg :: ed, by rw [hcons]; simp, hidu, Or.inl rfl,
              Or.inr ⟨ec, ed, hee, hrun, Or.inr ⟨sg, hsg, rfl⟩⟩, Or.inr (by simp)⟩

/-- Witness for C7 at a concrete instance: the token 1_2.3_e+4_ after its
leading digit 1. -/
theorem c7_number_rule_witness :
    is_digit '1' = true ∧
    (((number ['_', '2', '.', '3', '_', 'e', '+', '4', '_']).consumed ++
        (number ['_', '2', '.', '3', '_', 'e', '+', '4', '_']).rest =
        ['_', '2', '.', '3', '_', 'e', '+', '4', '_']) ∧
     (number ['_', '2', '.', '3', '_', 'e', '+', '4', '_']).kind = .TOKEN_FLOAT64) :=
  ⟨rfl,
   (c7_number_rule ['_', '2', '.', '3', '_', 'e', '+', '4', '_'] '1' rfl).1,
   by decide⟩

/-- C7 counterexample to the claim as stated: the input 1_ lexes as a
single TOKEN_INT consuming the trailing underscore, although an underscore
at the end of the token is not between digits, so the token does not fit
the claimed shape (it does fit the amended run shape). -/
theorem c7_counterexample_trailing_underscore :
    number ['_'] = ⟨.TOKEN_INT, "", ['_'], []⟩ ∧
    spec_number_shape ['1', '_'] = false ∧
    spec_digit_run ['1', '_'] = false ∧
    amended_run ['1', '_'] = true := by
  refine ⟨by decide, by decide, by decide, by decide⟩

/-- C5: the OP_ADD dispatch.  Two numbers push their sum; two strings push
the interned concatenation (the result lives in the intern table and is
the unique stored String with the concatenated contents); every other pair
of operand types prints exactly the error Operands to + must be two
strings or two numbers and makes run return INTERPRET_RUNTIME_ERROR. -/
theorem c5_op_add_dispatch (a b : ℚ) (ao bo : StrObj) (v w : RVal)
    (rest : List RVal) (ist : InternSt) (hwf : InternWF ist)
    (hnotstr : ¬(is_string_val w = true ∧ is_string_val v = true))
    (hnotnum : ¬(is_number_val w = true ∧ is_number_val v = true)) :
    op_add ⟨.num b :: .num a :: rest, ist⟩ = (none, none, ⟨.num (a + b) :: rest, ist⟩) ∧
    ((op_add ⟨.strV bo :: .strV ao :: rest, ist⟩).1 = none ∧
     (op_add ⟨.strV bo :: .strV ao :: rest, ist⟩).2.1 = none ∧
     (∃ o : StrObj,
       (op_add ⟨.strV bo :: .strV ao :: rest, ist⟩).2.2.stack = .strV o :: rest ∧
       o.chars = ao.chars ++ bo.chars ∧
       o ∈ (op_add ⟨.strV bo :: .strV ao :: rest, ist⟩).2.2.strings.pool ∧
       InternWF (op_add ⟨.strV bo :: .strV ao :: rest, ist⟩).2.2.strings ∧
       (∀ o2 ∈ (op_add ⟨.strV bo :: .strV ao :: rest, ist⟩).2.2.strings.pool,
         o2.chars = ao.chars ++ bo.chars → o2 = o))) ∧
    op_add ⟨w :: v :: rest, ist⟩ =
      (some "Operands to \x27+\x27 must be two strings or two numbers",
       some .INTERPRET_RUNTIME_ERROR, ⟨w :: v :: rest, ist⟩) := by
  refine ⟨rfl, ?_, ?_⟩
  · have hts := take_string_spec (ao.chars ++ bo.chars) ist hwf
    have hadd : op_add ⟨.strV bo :: .strV ao :: rest, ist⟩ =
        (none, none, ⟨.strV (take_string (ao.chars ++ bo.chars) ist).1 :: rest,
          (take_string (ao.chars ++ bo.chars) ist).2⟩) := by
      simp only [op_add, concatenate]
      rfl
    rw [hadd]
    exact ⟨rfl, rfl, (take_string (ao.chars ++ bo.chars) ist).1, rfl,
      hts.1, hts.2.2.1, hts.2.2.2.1, hts.2.2.2.2.1⟩
  · have hs : (is_string_val w && is_string_val v) = false := by
      by_contra hc
      simp only [Bool.not_eq_false, Bool.and_eq_true] at hc
      exact hnotstr hc
    have hn : (is_number_val w && is_number_val v) = false := by
      by_contra hc
      simp only [Bool.not_eq_false, Bool.and_eq_true] at hc
      exact hnotnum hc
    simp only [op_add, List.getD_cons_zero, List.getD_cons_succ]
    rw [hs, hn]
    simp

/-- Witness for C5 at a concrete instance: 1 + 2, ab concatenation, and
the mismatched pair true + 1. -/
theorem c5_op_add_dispatch_witness :
    (InternWF ⟨[], 0⟩ ∧
     ¬(is_string_val (.boolV true) = true ∧ is_string_val (.num 1) = true) ∧
     ¬(is_number_val (.boolV true) = true ∧ is_number_val (.num 1) = true)) ∧
    (op_add ⟨.num 2 :: .num 1 :: [], ⟨[], 0⟩⟩ =
      (none, none, ⟨.num (1 + 2) :: [], ⟨[], 0⟩⟩) ∧
     ((op_add ⟨.strV ⟨0, ['a'], hash_string ['a']⟩ :: .strV ⟨1, ['b'], hash_string ['b']⟩ :: [],
        ⟨[], 0⟩⟩).1 = none ∧
      (op_add ⟨.strV ⟨0, ['a'], hash_string ['a']⟩ :: .strV ⟨1, ['b'], hash_string ['b']⟩ :: [],
        ⟨[], 0⟩⟩).2.1 = none ∧
      (∃ o : StrObj,
        (op_add ⟨.strV ⟨0, ['a'], hash_string ['a']⟩ :: .strV ⟨1, ['b'], hash_string ['b']⟩ :: [],
          ⟨[], 0⟩⟩).2.2.stack = .strV o :: [] ∧
        o.chars = (⟨1, ['b'], hash_string ['b']⟩ : StrObj).chars ++
          (⟨0, ['a'], hash_string ['a']⟩ : StrObj).chars ∧
        o ∈ (op_add ⟨.strV ⟨0, ['a'], hash_string ['a']⟩ ::
            .strV ⟨1, ['b'], hash_string ['b']⟩ :: [], ⟨[], 0⟩⟩).2.2.strings.pool ∧
        InternWF (op_add ⟨.strV ⟨0, ['a'], hash_string ['a']⟩ ::
            .strV ⟨1, ['b'], hash_string ['b']⟩ :: [], ⟨[], 0⟩⟩).2.2.strings ∧
        (∀ o2 ∈ (op_add ⟨.strV ⟨0, ['a'], hash_string ['a']⟩ ::
              .strV ⟨1, ['b'], hash_string ['b']⟩ :: [], ⟨[], 0⟩⟩).2.2.strings.pool,
          o2.chars = (⟨1, ['b'], hash_string ['b']⟩ : StrObj).chars ++
            (⟨0, ['a'], hash_string ['a']⟩ : StrObj).chars → o2 = o))) ∧
     op_add ⟨.boolV true :: .num 1 :: [], ⟨[], 0⟩⟩ =
       (some "Operands to \x27+\x27 must be two strings or two numbers",
        some .INTERPRET_RUNTIME_ERROR, ⟨.boolV true :: .num 1 :: [], ⟨[], 0⟩⟩)) :=
  have hwf : InternWF ⟨[], 0⟩ := ⟨by simp, by simp⟩
  ⟨⟨hwf, by decide, by decide⟩,
   c5_op_add_dispatch 1 2 ⟨1, ['b'], hash_string ['b']⟩ ⟨0, ['a'], hash_string ['a']⟩
     (.num 1) (.boolV true) [] ⟨[], 0⟩ hwf (by decide) (by decide)⟩

/-- C8 (amended): the locals array of a Compiler holds UINT8_MAX = 255
entries, one of which is the reserved slot 0 installed by init_compiler;
add_local succeeds while fewer than 255 locals exist, and with 255 locals
it reports Too many local variables in scope. and leaves the array
untouched instead of writing past it. -/
theorem c8_add_local_bound (s : PState) (name : Token) (hp : s.panic_mode = false) :
    (init_pstate []).locals.length = 1 ∧
    (s.locals.length < UINT8_MAX →
      add_local name s = { s with locals := s.locals ++ [⟨name.lexeme, -1, false⟩] } ∧
      (add_local name s).locals.length = s.locals.length + 1) ∧
    (s.locals.length = UINT8_MAX →
      (add_local name s).locals = s.locals ∧
      (add_local name s).had_error = true ∧
      (add_local name s).errors = s.errors ++ ["Too many local variables in scope."] ∧
      (add_local name s).locals.length = UINT8_MAX) := by
  refine ⟨rfl, ?_, ?_⟩
  · intro hlt
    have hne : s.locals.length ≠ UINT8_MAX := by omega
    constructor
    · simp [add_local, hne]
    · simp [add_local, hne]
  · intro heq
    have h1 : add_local name s = error_ "Too many local variables in scope." s := by
      simp [add_local, heq]
    rw [h1]
    simp [error_, error_at, hp, heq]

/-- Witness for C8 at a concrete instance: the freshly initialized script
compiler. -/
theorem c8_add_local_bound_witness :
    (init_pstate []).panic_mode = false ∧
    ((init_pstate []).locals.length = 1 ∧
     ((init_pstate []).locals.length < UINT8_MAX →
       add_local ⟨.TOKEN_IDENTIFIER, ['x'], 1⟩ (init_pstate []) =
         { init_pstate [] with
             locals := (init_pstate []).locals ++ [⟨['x'], -1, false⟩] } ∧
       (add_local ⟨.TOKEN_IDENTIFIER, ['x'], 1⟩ (init_pstate [])).locals.length =
         (init_pstate []).locals.length + 1) ∧
     ((init_pstate []).locals.length = UINT8_MAX →
       (add_local ⟨.TOKEN_IDENTIFIER, ['x'], 1⟩ (init_pstate [])).locals =
         (init_pstate []).locals ∧
       (add_local ⟨.TOKEN_IDENTIFIER, ['x'], 1⟩ (init_pstate [])).had_error = true ∧
       (add_local ⟨.TOKEN_IDENTIFIER, ['x'], 1⟩ (init_pstate [])).errors =
         (init_pstate []).errors ++ ["Too many local variables in scope."] ∧
       (add_local ⟨.TOKEN_IDENTIFIER, ['x'], 1⟩ (init_pstate [])).locals.length =
         UINT8_MAX)) :=
  ⟨rfl, c8_add_local_bound (init_pstate []) ⟨.TOKEN_IDENTIFIER, ['x'], 1⟩ rfl⟩

set_option maxRecDepth 4000 in
/-- C8 counterexample to the claim as stated: the claimed maximum is 256,
but with 255 locals (fewer than 256) declaring another local already
reports the compile error, because the array is Local locals[UINT8_MAX]
with UINT8_MAX = 255. -/
theorem c8_counterexample_255_not_256 :
    (255 : Nat) < 256 ∧
    ({ init_pstate [] with
        locals := List.replicate 255 ⟨[], 0, false⟩ } : PState).locals.length = 255 ∧
    (add_local ⟨.TOKEN_IDENTIFIER, ['x'], 1⟩
      { init_pstate [] with
          locals := List.replicate 255 ⟨[], 0, false⟩ }).had_error = true ∧
    (add_local ⟨.TOKEN_IDENTIFIER, ['x'], 1⟩
      { init_pstate [] with
          locals := List.replicate 255 ⟨[], 0, false⟩ }).errors =
      ["Too many local variables in scope."] ∧
    (add_local ⟨.TOKEN_IDENTIFIER, ['x'], 1⟩
      { init_pstate [] with
          locals := List.replicate 255 ⟨[], 0, false⟩ }).locals.length = 255 := by
  refine ⟨by norm_num, by simp, ?_, ?_, ?_⟩ <;>
    simp [add_local, UINT8_MAX, error_, error_at, init_pstate]

/-- C9: compiling a string literal.  The string prefix rule calls
make_constant and then emit_constant, so the String value is appended to
the constant pool twice, and the OP_CONSTANT operand is the index of the
second copy (provided that index still fits the one-byte limit). -/
theorem c9_string_literal_two_pool_slots (s : PState)
    (h : s.chunk.constants.length + 1 ≤ UINT8_MAX) :
    (string_pre s).chunk.constants =
      s.chunk.constants ++
        [.strC ((s.previous.lexeme.drop 1).dropLast),
         .strC ((s.previous.lexeme.drop 1).dropLast)] ∧
    (string_pre s).chunk.code =
      s.chunk.code ++ [OP_CONSTANT, s.chunk.constants.length + 1] ∧
    (string_pre s).had_error = s.had_error ∧
    (string_pre s).errors = s.errors := by
  have h1 : ¬(UINT8_MAX < s.chunk.constants.length) := by omega
  have h2 : ¬(UINT8_MAX < s.chunk.constants.length + 1) := by omega
  simp only [string_pre, make_constant, add_constant, emit_constant, emit_bytes,
    emit_byte, write_chunk, List.length_append, List.length_cons, List.length_nil]
  rw [if_neg h1]
  simp only [List.length_append, List.length_cons, List.length_nil]
  rw [if_neg (by simpa using h2)]
  simp [List.append_assoc]

/-- Helper: the token stream of a family expression starts with its head
token. -/
theorem SExp.toks_head_eq (e : SExp) : e.toks = e.headTok :: e.toks.tail := by
  cases e <;> rfl

/-- Helper: the head token of a family expression dispatches to its prefix
rule. -/
theorem get_rule_headTok (e : SExp) : (get_rule e.headTok.type).pre = some e.pfn := by
  cases e <;> rfl

/-- Helper: the table precedence of every binary operator of the family
sits between equality and factor. -/
theorem bop_rule_prec (op : BOp) :
    PREC_EQUALITY ≤ (get_rule op.token).prec ∧ (get_rule op.token).prec ≤ PREC_FACTOR := by
  cases op <;> exact ⟨by decide, by decide⟩

/-- Helper: the infix rule of every binary operator of the family is
binary. -/
theorem bop_rule_inf (op : BOp) : (get_rule op.token).inf = some .binary := by
  cases op <;> rfl

/-- Helper: no binary operator token is the equals sign or the error
token. -/
theorem bop_token_ne (op : BOp) :
    op.token ≠ .TOKEN_EQUAL ∧ op.token ≠ .TOKEN_ERROR := by
  cases op <;> exact ⟨by decide, by decide⟩

/-- Helper: family token streams contain no error token. -/
theorem toks_no_error (e : SExp) : ∀ t ∈ e.toks, t.type ≠ .TOKEN_ERROR := by
  induction e with
  | numE ds => intro t ht; simp [SExp.toks] at ht; subst ht; simp
  | trueE => intro t ht; simp [SExp.toks] at ht; subst ht; decide
  | falseE => intro t ht; simp [SExp.toks] at ht; subst ht; decide
  | nilE => intro t ht; simp [SExp.toks] at ht; subst ht; decide
  | varE nm => intro t ht; simp [SExp.toks] at ht; subst ht; simp
  | negE e ih =>
    intro t ht
    rcases List.mem_cons.mp ht with rfl | h2
    · decide
    · exact ih t h2
  | notE e ih =>
    intro t ht
    rcases List.mem_cons.mp ht with rfl | h2
    · decide
    · exact ih t h2
  | posE e ih =>
    intro t ht
    rcases List.mem_cons.mp ht with rfl | h2
    · decide
    · exact ih t h2
  | binE e1 op e2 ih1 ih2 =>
    intro t ht
    rcases List.mem_cons.mp ht with rfl | h2
    · decide
    · rcases List.mem_append.mp h2 with h3 | h4
      · exact ih1 t h3
      · rcases List.mem_cons.mp h4 with rfl | h5
        · show op.token ≠ .TOKEN_ERROR
          exact (bop_token_ne op).2
        · rcases List.mem_append.mp h5 with h6 | h7
          · exact ih2 t h6
          · rcases List.mem_cons.mp h7 with rfl | h8
            · decide
            · exact absurd h8 (List.not_mem_nil t)

/-- Helper: advance on a known next token that is not an error token. -/
theorem advance_shape (s : PState) (t : Token) (ts : List Token)
    (hr : s.rest = t :: ts) (ht : t.type ≠ .TOKEN_ERROR) :
    advance s = { s with previous := s.current, current := t, rest := ts } := by
  unfold advance
  have : pull_token s.rest { s with previous := s.current } =
      pull_token (t :: ts) { s with previous := s.current } := by rw [hr]
  rw [this]
  unfold pull_token
  rw [if_neg ht]

/-- Helper: advance when the remaining stream starts with the tail of a
family expression followed by a non-error stopper. -/
theorem advance_into (e : SExp) (s : PState) (rh : Token) (rt : List Token)
    (hrest : s.rest = e.toks.tail ++ rh :: rt) (hrh : rh.type ≠ .TOKEN_ERROR) :
    advance s = { s with
                  previous := s.current,
                  current := (e.toks.tail ++ rh :: rt).headD eof_token,
                  rest := (e.toks.tail ++ rh :: rt).tail } := by
  rcases htail : e.toks.tail with - | ⟨x, xs⟩
  · rw [htail] at hrest
    rw [advance_shape s rh rt hrest hrh]
    rfl
  · rw [htail] at hrest
    have hx : x.type ≠ .TOKEN_ERROR := by
      apply toks_no_error e
      rw [SExp.toks_head_eq e, htail]
      exact List.mem_cons_of_mem _ (List.mem_cons_self x xs)
    rw [advance_shape s x (xs ++ rh :: rt) (by simpa using hrest) hx]
    rfl

/-- Helper: match on a token kind that is not current. -/
theorem match_no (t : TokenType) (s : PState) (h : s.current.type ≠ t) :
    match_ t s = (false, s) := by
  unfold match_ check
  rw [if_neg (by simpa using h)]

/-- Helper: the infix loop stops when the current token binds looser than
the requested precedence. -/
theorem infix_stop (n prec : Nat) (ca : Bool) (s : PState)
    (h : (get_rule s.current.type).prec < prec) :
    infix_loop (n + 1) prec ca s = s := by
  unfold infix_loop
  rw [if_neg (by omega)]

/-- Helper: make_constant below the one-byte limit. -/
theorem make_constant_ok (v : CVal) (s : PState)
    (h : s.chunk.constants.length ≤ UINT8_MAX) :
    make_constant v s =
      ({ s with chunk := ⟨s.chunk.code, s.chunk.constants ++ [v]⟩ },
        s.chunk.constants.length) := by
  unfold make_constant add_constant
  dsimp only
  rw [if_neg (Nat.not_lt.mpr h)]

/-- Helper: emit_constant below the one-byte limit. -/
theorem emit_constant_ok (v : CVal) (s : PState)
    (h : s.chunk.constants.length ≤ UINT8_MAX) :
    emit_constant v s =
      { s with chunk := ⟨s.chunk.code ++ [OP_CONSTANT, s.chunk.constants.length],
                         s.chunk.constants ++ [v]⟩ } := by
  unfold emit_constant
  rw [make_constant_ok v s h]
  unfold emit_bytes emit_byte write_chunk
  simp [List.append_assoc]

/-- Helper: named_variable on a name that matches no local of the script
compiler falls back to a global access and emits OP_GET_GLOBAL with the
index of the fresh identifier constant. -/
theorem named_variable_global (g : Nat) (name : Token) (ca : Bool) (s : PState)
    (hloc : s.locals = [⟨String.toList "this", 0, false⟩])
    (hname : name.lexeme ≠ String.toList "this")
    (hbound : s.chunk.constants.length ≤ UINT8_MAX)
    (hcur : s.current.type ≠ .TOKEN_EQUAL) :
    named_variable (g + 1) name ca s =
      { s with chunk := ⟨s.chunk.code ++ [OP_GET_GLOBAL, s.chunk.constants.length],
                         s.chunk.constants ++ [.strC name.lexeme]⟩ } := by
  have hname2 : name.lexeme ≠ ['t', 'h', 'i', 's'] := fun hc => hname (by rw [hc]; rfl)
  have hres : resolve_local s name = (s, -1) := by
    unfold resolve_local
    rw [hloc]
    simp [identifiers_equal, hname2]
  have hmc := make_constant_ok (.strC name.lexeme) s hbound
  have hmod : s.chunk.constants.length % 256 = s.chunk.constants.length :=
    Nat.mod_eq_of_lt (by unfold UINT8_MAX at hbound; omega)
  cases ca with
  | false =>
    unfold named_variable
    rw [hres]
    simp [identifier_constant, resolve_upvalue, hmc, emit_bytes, emit_byte,
      write_chunk, hmod, List.append_assoc]
  | true =>
    unfold named_variable
    rw [hres]
    simp [identifier_constant, resolve_upvalue, hmc, match_, check, hcur,
      emit_bytes, emit_byte, write_chunk, hmod, List.append_assoc]

/-- Helper: a parse_precedence call on a family expression satisfies the
full specification whenever the prefix phase of the expression does. -/
theorem parsePrec_of_runPre (e : SExp) (hP : RunPreSpec e) : ParsePrecSpec e := by
  intro fuel prec s rh rt hwf hfuel hp1 hp8 hcur hrest hloc hbound hstop heq herr
  rcases fuel with - | n
  · exfalso; omega
  rcases n with - | m
  · exfalso; omega
  have hadv := advance_into e s rh rt hrest herr
  have hprev1 : (advance s).previous = e.headTok := by rw [hadv]; exact hcur
  have hcur1 : (advance s).current = (e.toks.tail ++ rh :: rt).headD eof_token := by
    rw [hadv]
  have hrest1 : (advance s).rest = (e.toks.tail ++ rh :: rt).tail := by rw [hadv]
  have hloc1 : (advance s).locals = [⟨String.toList "this", 0, false⟩] := by
    rw [hadv]; exact hloc
  have hchunk1 : (advance s).chunk = s.chunk := by rw [hadv]
  obtain ⟨t, hteq, htprev, htcur, htrest, htloc, htchunk⟩ :
      ∃ t : PState, advance s = t ∧ t.previous = e.headTok ∧
        t.current = (e.toks.tail ++ rh :: rt).headD eof_token ∧
        t.rest = (e.toks.tail ++ rh :: rt).tail ∧
        t.locals = [⟨String.toList "this", 0, false⟩] ∧ t.chunk = s.chunk :=
    ⟨advance s, rfl, hprev1, hcur1, hrest1, hloc1, hchunk1⟩
  have h8 : PREC_UNARY = 8 := rfl
  have hpret : (get_rule t.previous.type).pre = some e.pfn := by
    rw [htprev]; exact get_rule_headTok e
  have h2 := hP (m + 1) (decide (prec ≤ PREC_ASSIGNMENT)) t rh rt hwf (by omega)
    htprev htcur htrest htloc (by rw [htchunk]; exact hbound) (by omega) heq herr
  simp only [parse_precedence, hteq]
  simp [hpret, h2, infix_stop, hstop, match_, check, heq]
  rw [← hteq, hadv]
  simp

/-- Helper: the infix loop takes a step through the binary rule when the
current token binds at least as tightly as the requested precedence. -/
theorem infix_loop_binary_step (n prec : Nat) (ca : Bool) (s : PState)
    (hp : prec ≤ (get_rule s.current.type).prec)
    (hinf : (get_rule (advance s).previous.type).inf = some .binary) :
    infix_loop (n + 1) prec ca s =
      infix_loop n prec ca (run_inf n .binary ca (advance s)) := by
  conv_lhs => rw [infix_loop]
  rw [if_pos hp]
  simp only [hinf]

/-- Helper: the binary infix function compiles the right operand at one
level above the precedence of the operator read into previous, then emits
the bytes of the operator. -/
theorem run_inf_binary (j : Nat) (ca : Bool) (op : BOp) (t R : PState)
    (hprev : t.previous = ⟨op.token, [], 1⟩)
    (h5 : parse_precedence j ((get_rule op.token).prec + 1) t = R) :
    run_inf (j + 1) .binary ca t =
      { R with chunk := ⟨R.chunk.code ++ op.bytes, R.chunk.constants⟩ } := by
  cases op
  all_goals simp only [BOp.token] at hprev h5
  all_goals simp only [BOp.bytes]
  all_goals simp [run_inf, hprev, h5, emit_byte, emit_bytes, write_chunk,
    List.append_assoc]

/-- Helper: one round of the infix loop at the grouping precedence on a
binary operator of the family: the operator is consumed, the right operand
compiled one level tighter, the operator bytes emitted, and the loop stops
at the closing parenthesis. -/
theorem infix_one_binary (e2 : SExp) (hQ : ParsePrecSpec e2) (j : Nat) (ca : Bool)
    (op : BOp) (s : PState) (rh : Token) (rt : List Token)
    (hwf : e2.wfb = true)
    (hfuel : e2.need + 2 ≤ j)
    (hcur : s.current = ⟨op.token, [], 1⟩)
    (hrest : s.rest = e2.toks ++ ⟨.TOKEN_RIGHT_PAREN, [')'], 1⟩ :: rh :: rt)
    (hloc : s.locals = [⟨String.toList "this", 0, false⟩])
    (hbound : s.chunk.constants.length + e2.consts.length ≤ 256) :
    infix_loop (j + 1 + 1) PREC_ASSIGNMENT ca s =
      { s with previous := e2.lastTok,
               current := ⟨.TOKEN_RIGHT_PAREN, [')'], 1⟩,
               rest := rh :: rt,
               chunk := ⟨s.chunk.code ++ e2.code s.chunk.constants.length ++ op.bytes,
                         s.chunk.constants ++ e2.consts⟩ } := by
  have htt := SExp.toks_head_eq e2
  have hrest2 : s.rest =
      e2.headTok :: (e2.toks.tail ++ ⟨.TOKEN_RIGHT_PAREN, [')'], 1⟩ :: rh :: rt) := by
    rw [hrest, htt]; simp
  have hne2 : e2.headTok.type ≠ .TOKEN_ERROR :=
    toks_no_error e2 e2.headTok (by rw [htt]; exact List.mem_cons_self _ _)
  have hadv := advance_shape s e2.headTok
    (e2.toks.tail ++ ⟨.TOKEN_RIGHT_PAREN, [')'], 1⟩ :: rh :: rt) hrest2 hne2
  have hprev1 : (advance s).previous = ⟨op.token, [], 1⟩ := by rw [hadv]; exact hcur
  have hcur1 : (advance s).current = e2.headTok := by rw [hadv]
  have hrest1 : (advance s).rest =
      e2.toks.tail ++ ⟨.TOKEN_RIGHT_PAREN, [')'], 1⟩ :: rh :: rt := by rw [hadv]
  have hloc1 : (advance s).locals = [⟨String.toList "this", 0, false⟩] := by
    rw [hadv]; exact hloc
  have hchunk1 : (advance s).chunk = s.chunk := by rw [hadv]
  obtain ⟨t, hteq, htprev, htcur, htrest, htloc, htchunk⟩ :
      ∃ t : PState, advance s = t ∧ t.previous = ⟨op.token, [], 1⟩ ∧
        t.current = e2.headTok ∧
        t.rest = e2.toks.tail ++ ⟨.TOKEN_RIGHT_PAREN, [')'], 1⟩ :: rh :: rt ∧
        t.locals = [⟨String.toList "this", 0, false⟩] ∧ t.chunk = s.chunk :=
    ⟨advance s, rfl, hprev1, hcur1, hrest1, hloc1, hchunk1⟩
  have hop := bop_rule_prec op
  have hEQ4 : PREC_EQUALITY = 4 := rfl
  have hF7 : PREC_FACTOR = 7 := rfl
  have h5 := hQ j ((get_rule op.token).prec + 1) t
    ⟨.TOKEN_RIGHT_PAREN, [')'], 1⟩ (rh :: rt) hwf hfuel (by omega)
    (by have hU8 : PREC_UNARY = 8 := rfl; omega) htcur htrest htloc
    (by rw [htchunk]; exact hbound)
    (by show (get_rule TokenType.TOKEN_RIGHT_PAREN).prec < (get_rule op.token).prec + 1
        have h0 : (get_rule TokenType.TOKEN_RIGHT_PAREN).prec = 0 := rfl
        omega)
    (by decide) (by decide)
  have h6 := run_inf_binary j ca op t _ htprev h5
  obtain ⟨u, hueq, hucur⟩ :
      ∃ u : PState, run_inf (j + 1) .binary ca t = u ∧
        u.current = (⟨.TOKEN_RIGHT_PAREN, [')'], 1⟩ : Token) :=
    ⟨_, h6, rfl⟩
  have hcond : PREC_ASSIGNMENT ≤ (get_rule s.current.type).prec := by
    rw [hcur]
    show PREC_ASSIGNMENT ≤ (get_rule op.token).prec
    have hPA : PREC_ASSIGNMENT = 1 := rfl
    omega
  have hinfadv : (get_rule (advance s).previous.type).inf = some .binary := by
    rw [hprev1]
    exact bop_rule_inf op
  rw [infix_loop_binary_step (j + 1) PREC_ASSIGNMENT ca s hcond hinfadv, hteq, hueq,
    infix_stop j PREC_ASSIGNMENT ca u (by rw [hucur]; decide), ← hueq, h6, ← hteq, hadv]

/-- Helper: every family expression satisfies the prefix-phase
specification, by structural induction over the family. -/
theorem runPreSpec_all (e : SExp) : RunPreSpec e := by
  induction e with
  | numE ds =>
    intro fuel ca s rh rt hwf hneed hprev hcur hrest hloc hbound hstop heq herr
    rcases fuel with - | n
    · exfalso; simp only [SExp.need] at hneed; omega
    simp only [SExp.toks, List.tail_cons, List.nil_append, List.headD_cons] at hcur hrest
    simp only [SExp.headTok] at hprev
    simp only [SExp.consts, List.length_singleton] at hbound
    have hb : s.chunk.constants.length ≤ UINT8_MAX := by
      have h255 : UINT8_MAX = 255 := rfl
      omega
    simp only [SExp.pfn, run_pre]
    rw [hprev]
    dsimp only
    rw [emit_constant_ok (.numC (str_to_d ds)) s hb]
    simp [SExp.lastTok, SExp.code, SExp.consts, hprev, hcur, hrest]
  | trueE =>
    intro fuel ca s rh rt hwf hneed hprev hcur hrest hloc hbound hstop heq herr
    rcases fuel with - | n
    · exfalso; simp only [SExp.need] at hneed; omega
    simp only [SExp.toks, List.tail_cons, List.nil_append, List.headD_cons] at hcur hrest
    simp only [SExp.headTok] at hprev
    simp only [SExp.pfn, run_pre]
    rw [hprev]
    dsimp only
    simp [emit_byte, write_chunk, SExp.lastTok, SExp.code, SExp.consts, hprev, hcur, hrest]
  | falseE =>
    intro fuel ca s rh rt hwf hneed hprev hcur hrest hloc hbound hstop heq herr
    rcases fuel with - | n
    · exfalso; simp only [SExp.need] at hneed; omega
    simp only [SExp.toks, List.tail_cons, List.nil_append, List.headD_cons] at hcur hrest
    simp only [SExp.headTok] at hprev
    simp only [SExp.pfn, run_pre]
    rw [hprev]
    dsimp only
    simp [emit_byte, write_chunk, SExp.lastTok, SExp.code, SExp.consts, hprev, hcur, hrest]
  | nilE =>
    intro fuel ca s rh rt hwf hneed hprev hcur hrest hloc hbound hstop heq herr
    rcases fuel with - | n
    · exfalso; simp only [SExp.need] at hneed; omega
    simp only [SExp.toks, List.tail_cons, List.nil_append, List.headD_cons] at hcur hrest
    simp only [SExp.headTok] at hprev
    simp only [SExp.pfn, run_pre]
    rw [hprev]
    dsimp only
    simp [emit_byte, write_chunk, SExp.lastTok, SExp.code, SExp.consts, hprev, hcur, hrest]
  | varE nm =>
    intro fuel ca s rh rt hwf hneed hprev hcur hrest hloc hbound hstop heq herr
    rcases fuel with - | n
    · exfalso; simp only [SExp.need] at hneed; omega
    rcases n with - | g
    · exfalso; simp only [SExp.need] at hneed; omega
    simp only [SExp.toks, List.tail_cons, List.nil_append, List.headD_cons] at hcur hrest
    simp only [SExp.headTok] at hprev
    simp only [SExp.wfb] at hwf
    simp [Bool.and_eq_true] at hwf
    simp only [SExp.consts, List.length_singleton] at hbound
    have hb : s.chunk.constants.length ≤ UINT8_MAX := by
      have h255 : UINT8_MAX = 255 := rfl
      omega
    have hcne : s.current.type ≠ TokenType.TOKEN_EQUAL := by rw [hcur]; exact heq
    simp only [SExp.pfn, run_pre]
    rw [hprev]
    rw [named_variable_global g ⟨.TOKEN_IDENTIFIER, nm, 1⟩ ca s hloc hwf.2 hb hcne]
    simp [SExp.lastTok, SExp.code, SExp.consts, hprev, hcur, hrest]
  | negE e ih =>
    intro fuel ca s rh rt hwf hneed hprev hcur hrest hloc hbound hstop heq herr
    rcases fuel with - | n
    · exfalso; simp only [SExp.need] at hneed; omega
    simp only [SExp.need] at hneed
    simp only [SExp.wfb] at hwf
    simp only [SExp.headTok] at hprev
    simp only [SExp.consts] at hbound
    have htt := SExp.toks_head_eq e
    simp only [SExp.toks, List.tail_cons] at hcur hrest
    rw [htt] at hcur hrest
    simp only [List.cons_append, List.headD_cons, List.tail_cons] at hcur hrest
    have hQ := parsePrec_of_runPre e ih n PREC_UNARY s rh rt hwf (by omega)
      (by decide) (le_refl _) hcur hrest hloc hbound
      (by have h8 : PREC_UNARY = 8 := rfl; omega) heq herr
    simp only [SExp.pfn, run_pre]
    rw [hprev]
    dsimp only
    rw [hQ]
    simp [emit_byte, write_chunk, SExp.lastTok, SExp.code, SExp.consts,
      List.append_assoc]
  | notE e ih =>
    intro fuel ca s rh rt hwf hneed hprev hcur hrest hloc hbound hstop heq herr
    rcases fuel with - | n
    · exfalso; simp only [SExp.need] at hneed; omega
    simp only [SExp.need] at hneed
    simp only [SExp.wfb] at hwf
    simp only [SExp.headTok] at hprev
    simp only [SExp.consts] at hbound
    have htt := SExp.toks_head_eq e
    simp only [SExp.toks, List.tail_cons] at hcur hrest
    rw [htt] at hcur hrest
    simp only [List.cons_append, List.headD_cons, List.tail_cons] at hcur hrest
    have hQ := parsePrec_of_runPre e ih n PREC_UNARY s rh rt hwf (by omega)
      (by decide) (le_refl _) hcur hrest hloc hbound
      (by have h8 : PREC_UNARY = 8 := rfl; omega) heq herr
    simp only [SExp.pfn, run_pre]
    rw [hprev]
    dsimp only
    rw [hQ]
    simp [emit_byte, write_chunk, SExp.lastTok, SExp.code, SExp.consts,
      List.append_assoc]
  | posE e ih =>
    intro fuel ca s rh rt hwf hneed hprev hcur hrest hloc hbound hstop heq herr
    rcases fuel with - | n
    · exfalso; simp only [SExp.need] at hneed; omega
    simp only [SExp.need] at hneed
    simp only [SExp.wfb] at hwf
    simp only [SExp.headTok] at hprev
    simp only [SExp.consts] at hbound
    have htt := SExp.toks_head_eq e
    simp only [SExp.toks, List.tail_cons] at hcur hrest
    rw [htt] at hcur hrest
    simp only [List.cons_append, List.headD_cons, List.tail_cons] at hcur hrest
    have hQ := parsePrec_of_runPre e ih n PREC_UNARY s rh rt hwf (by omega)
      (by decide) (le_refl _) hcur hrest hloc hbound
      (by have h8 : PREC_UNARY = 8 := rfl; omega) heq herr
    simp only [SExp.pfn, run_pre]
    rw [hprev]
    dsimp only
    rw [hQ]
    simp [SExp.lastTok, SExp.code, SExp.consts, List.append_assoc]
  | binE e1 op e2 ih1 ih2 =>
    intro fuel ca s rh rt hwf hneed hprev hcur hrest hloc hbound hstop heq herr
    rcases fuel with - | n
    · exfalso; simp only [SExp.need] at hneed; omega
    rcases n with - | n
    · exfalso; simp only [SExp.need] at hneed; omega
    rcases n with - | n
    · exfalso; simp only [SExp.need] at hneed; omega
    rcases n with - | j
    · exfalso; simp only [SExp.need] at hneed; omega
    simp only [SExp.need] at hneed
    simp only [SExp.wfb, Bool.and_eq_true] at hwf
    simp only [SExp.headTok] at hprev
    simp only [SExp.consts, List.length_append] at hbound
    have htt1 := SExp.toks_head_eq e1
    simp only [SExp.toks, List.tail_cons] at hcur hrest
    rw [htt1] at hcur hrest
    simp only [List.cons_append, List.append_assoc, List.singleton_append,
      List.headD_cons, List.tail_cons] at hcur hrest
    have hQ2 := parsePrec_of_runPre e2 ih2
    have herrop : (⟨op.token, [], 1⟩ : Token).type ≠ .TOKEN_ERROR := by
      show op.token ≠ .TOKEN_ERROR
      exact (bop_token_ne op).2
    have hadv := advance_into e1 s ⟨op.token, [], 1⟩
      (e2.toks ++ ⟨.TOKEN_RIGHT_PAREN, [')'], 1⟩ :: rh :: rt) hrest herrop
    have hprev1 : (advance s).previous = e1.headTok := by rw [hadv]; exact hcur
    have hcur1 : (advance s).current =
        (e1.toks.tail ++ ⟨op.token, [], 1⟩ ::
          (e2.toks ++ ⟨.TOKEN_RIGHT_PAREN, [')'], 1⟩ :: rh :: rt)).headD eof_token := by
      rw [hadv]
    have hrest1 : (advance s).rest =
        (e1.toks.tail ++ ⟨op.token, [], 1⟩ ::
          (e2.toks ++ ⟨.TOKEN_RIGHT_PAREN, [')'], 1⟩ :: rh :: rt)).tail := by
      rw [hadv]
    have hloc1 : (advance s).locals = [⟨String.toList "this", 0, false⟩] := by
      rw [hadv]; exact hloc
    have hchunk1 : (advance s).chunk = s.chunk := by rw [hadv]
    obtain ⟨t, hteq, htprev, htcur, htrest, htloc, htchunk⟩ :
        ∃ t : PState, advance s = t ∧ t.previous = e1.headTok ∧
          t.current =
            (e1.toks.tail ++ ⟨op.token, [], 1⟩ ::
              (e2.toks ++ ⟨.TOKEN_RIGHT_PAREN, [')'], 1⟩ :: rh :: rt)).headD eof_token ∧
          t.rest =
            (e1.toks.tail ++ ⟨op.token, [], 1⟩ ::
              (e2.toks ++ ⟨.TOKEN_RIGHT_PAREN, [')'], 1⟩ :: rh :: rt)).tail ∧
          t.locals = [⟨String.toList "this", 0, false⟩] ∧ t.chunk = s.chunk :=
      ⟨advance s, rfl, hprev1, hcur1, hrest1, hloc1, hchunk1⟩
    have h2 := ih1 (j + 1 + 1) (decide (PREC_ASSIGNMENT ≤ PREC_ASSIGNMENT)) t
      ⟨op.token, [], 1⟩ (e2.toks ++ ⟨.TOKEN_RIGHT_PAREN, [')'], 1⟩ :: rh :: rt)
      hwf.1 (by omega) htprev htcur htrest htloc (by rw [htchunk]; omega)
      (by show (get_rule op.token).prec ≤ 7
          have h7 := (bop_rule_prec op).2
          have hF : PREC_FACTOR = 7 := rfl
          omega)
      (by show op.token ≠ .TOKEN_EQUAL
          exact (bop_token_ne op).1)
      herrop
    obtain ⟨u1, hueq1, hucur1, hurest1, huloc1, hubound1⟩ :
        ∃ u1 : PState,
          run_pre (j + 1 + 1) e1.pfn (decide (PREC_ASSIGNMENT ≤ PREC_ASSIGNMENT)) t = u1 ∧
          u1.current = (⟨op.token, [], 1⟩ : Token) ∧
          u1.rest = e2.toks ++ ⟨.TOKEN_RIGHT_PAREN, [')'], 1⟩ :: rh :: rt ∧
          u1.locals = [⟨String.toList "this", 0, false⟩] ∧
          u1.chunk.constants.length + e2.consts.length ≤ 256 :=
      ⟨_, h2, rfl, rfl, htloc,
        by show (t.chunk.constants ++ e1.consts).length + e2.consts.length ≤ 256
           rw [htchunk]
           simp only [List.length_append]
           omega⟩
    have h6 := infix_one_binary e2 hQ2 j (decide (PREC_ASSIGNMENT ≤ PREC_ASSIGNMENT)) op
      u1 rh rt hwf.2 (by omega) hucur1 hurest1 huloc1 hubound1
    obtain ⟨u2, hueq2, hucur2, hurest2⟩ :
        ∃ u2 : PState,
          infix_loop (j + 1 + 1) PREC_ASSIGNMENT
            (decide (PREC_ASSIGNMENT ≤ PREC_ASSIGNMENT)) u1 = u2 ∧
          u2.current = (⟨.TOKEN_RIGHT_PAREN, [')'], 1⟩ : Token) ∧
          u2.rest = rh :: rt :=
      ⟨_, h6, rfl, rfl⟩
    have hpret : (get_rule t.previous.type).pre = some e1.pfn := by
      rw [htprev]; exact get_rule_headTok e1
    simp only [SExp.pfn, run_pre]
    simp only [parse_precedence, hteq, hpret, hueq1, hueq2]
    have hm : match_ .TOKEN_EQUAL u2 = (false, u2) :=
      match_no _ _ (by rw [hucur2]; decide)
    simp [hm]
    have hcons : consume .TOKEN_RIGHT_PAREN "Expect \x27)\x27 after expression." u2 =
        advance u2 := by
      unfold consume
      rw [if_pos (by rw [hucur2])]
    rw [hcons, advance_shape u2 rh rt hurest2 herr]
    rw [← hueq2, h6, ← hueq1, h2, ← hteq, hadv]
    simp [SExp.lastTok, SExp.code, SExp.consts, List.append_assoc, List.length_append]

/-- Helper: compiling a family expression followed by a semicolon from the
initial compiler state produces exactly the code and constants of the
expression, with no error and fuel to spare. -/
theorem compile_expression_family (e : SExp) (fuel : Nat)
    (hwf : e.wfb = true) (hfuel : e.need + 2 ≤ fuel)
    (hbound : e.consts.length ≤ 256) :
    compile_expression fuel (e.toks ++ [⟨.TOKEN_SEMICOLON, [';'], 1⟩]) =
      { rest := [], current := ⟨.TOKEN_SEMICOLON, [';'], 1⟩, previous := e.lastTok,
        chunk := ⟨e.code 0, e.consts⟩,
        locals := [⟨String.toList "this", 0, false⟩],
        scope_depth := 0, klass := false, klass_super := false,
        had_error := false, panic_mode := false, errors := [], fuel_out := false } := by
  have hQ := parsePrec_of_runPre e (runPreSpec_all e)
  have htt := SExp.toks_head_eq e
  have hrest0 : (init_pstate (e.toks ++ [⟨.TOKEN_SEMICOLON, [';'], 1⟩])).rest =
      e.headTok :: (e.toks.tail ++ ⟨.TOKEN_SEMICOLON, [';'], 1⟩ :: []) := by
    show e.toks ++ [⟨.TOKEN_SEMICOLON, [';'], 1⟩] = _
    rw [htt]
    simp
  have hne : e.headTok.type ≠ .TOKEN_ERROR :=
    toks_no_error e e.headTok (by rw [htt]; exact List.mem_cons_self _ _)
  have hadv := advance_shape (init_pstate (e.toks ++ [⟨.TOKEN_SEMICOLON, [';'], 1⟩]))
    e.headTok (e.toks.tail ++ ⟨.TOKEN_SEMICOLON, [';'], 1⟩ :: []) hrest0 hne
  have h1 := hQ fuel PREC_ASSIGNMENT
    (advance (init_pstate (e.toks ++ [⟨.TOKEN_SEMICOLON, [';'], 1⟩])))
    ⟨.TOKEN_SEMICOLON, [';'], 1⟩ [] hwf hfuel (by decide) (by decide)
    (by rw [hadv])
    (by rw [hadv])
    (by rw [hadv]; rfl)
    (by rw [hadv]; simpa [init_pstate] using hbound)
    (by decide) (by decide) (by decide)
  show parse_precedence fuel PREC_ASSIGNMENT
      (advance (init_pstate (e.toks ++ [⟨.TOKEN_SEMICOLON, [';'], 1⟩]))) = _
  rw [h1, hadv]
  simp [init_pstate]

/-- C10 (amended): the rules table gives TOKEN_PLUS the unary prefix rule
and unary() emits no opcode for it, so prefixing a plus sign to an
assignment-free expression compiles identically: the same final parser
state, whose chunk holds exactly the code and constants of the expression
and whose error flag is clear.  The universally quantified claim fails on
top-level assignments, for which the plus-prefixed program is a compile
error instead (see the counterexample). -/
theorem c10_unary_plus_identity (e : SExp) (fuel : Nat)
    (hwf : e.wfb = true) (hfuel : e.need + 5 ≤ fuel)
    (hbound : e.consts.length ≤ 256) :
    compile_expression fuel (⟨.TOKEN_PLUS, ['+'], 1⟩ ::
        (e.toks ++ [⟨.TOKEN_SEMICOLON, [';'], 1⟩])) =
      compile_expression fuel (e.toks ++ [⟨.TOKEN_SEMICOLON, [';'], 1⟩]) ∧
    (compile_expression fuel (e.toks ++ [⟨.TOKEN_SEMICOLON, [';'], 1⟩])).chunk =
      ⟨e.code 0, e.consts⟩ ∧
    (compile_expression fuel (e.toks ++ [⟨.TOKEN_SEMICOLON, [';'], 1⟩])).had_error =
      false ∧
    (compile_expression fuel (e.toks ++ [⟨.TOKEN_SEMICOLON, [';'], 1⟩])).fuel_out =
      false := by
  have h1 := compile_expression_family e fuel hwf (by omega) hbound
  have h2 := compile_expression_family (.posE e) fuel (by simpa [SExp.wfb] using hwf)
    (by simp only [SExp.need]; omega) (by simpa [SExp.consts] using hbound)
  simp only [SExp.toks, List.cons_append, SExp.code, SExp.consts, SExp.lastTok] at h2
  refine ⟨?_, ?_, ?_, ?_⟩
  · rw [h1, h2]
  · rw [h1]
  · rw [h1]
  · rw [h1]

/-- Witness for C10 at a concrete instance: the integer literal 2 with a
leading plus sign, with fuel 20. -/
theorem c10_unary_plus_identity_witness :
    (SExp.numE ['2']).wfb = true ∧ (SExp.numE ['2']).need + 5 ≤ 20 ∧
    (SExp.numE ['2']).consts.length ≤ 256 ∧
    (compile_expression 20 (⟨.TOKEN_PLUS, ['+'], 1⟩ ::
        ((SExp.numE ['2']).toks ++ [⟨.TOKEN_SEMICOLON, [';'], 1⟩])) =
      compile_expression 20 ((SExp.numE ['2']).toks ++
        [⟨.TOKEN_SEMICOLON, [';'], 1⟩])) :=
  ⟨by decide, by decide, by decide,
    (c10_unary_plus_identity (.numE ['2']) 20 (by decide) (by decide) (by decide)).1⟩

/-- Counterexample to the universally quantified reading of C10: the
assignment x = 1 compiles without error, but its plus-prefixed form is
rejected with the invalid-assignment-target compile error, so the two
programs are not compiled identically. -/
theorem c10_counterexample_assignment :
    (compile_expression 10 [⟨.TOKEN_IDENTIFIER, ['x'], 1⟩, ⟨.TOKEN_EQUAL, ['='], 1⟩,
        ⟨.TOKEN_INT, ['1'], 1⟩, ⟨.TOKEN_SEMICOLON, [';'], 1⟩]).had_error = false ∧
    (compile_expression 10 (⟨.TOKEN_PLUS, ['+'], 1⟩ :: [⟨.TOKEN_IDENTIFIER, ['x'], 1⟩,
        ⟨.TOKEN_EQUAL, ['='], 1⟩, ⟨.TOKEN_INT, ['1'], 1⟩,
        ⟨.TOKEN_SEMICOLON, [';'], 1⟩])).had_error = true ∧
    (compile_expression 10 (⟨.TOKEN_PLUS, ['+'], 1⟩ :: [⟨.TOKEN_IDENTIFIER, ['x'], 1⟩,
        ⟨.TOKEN_EQUAL, ['='], 1⟩, ⟨.TOKEN_INT, ['1'], 1⟩,
        ⟨.TOKEN_SEMICOLON, [';'], 1⟩])).errors = ["Invalid assignment target."] :=
  ⟨rfl, rfl, rfl⟩

/-- Witness for C9 at a concrete instance: the literal h compiled into an
empty chunk. -/
theorem c9_string_literal_two_pool_slots_witness :
    ({ init_pstate [] with
        previous := ⟨.TOKEN_STRING, ['"', 'h', '"'], 1⟩ } : PState).chunk.constants.length + 1 ≤
      UINT8_MAX ∧
    ((string_pre { init_pstate [] with
        previous := ⟨.TOKEN_STRING, ['"', 'h', '"'], 1⟩ }).chunk.constants =
      ({ init_pstate [] with
          previous := ⟨.TOKEN_STRING, ['"', 'h', '"'], 1⟩ } : PState).chunk.constants ++
        [.strC (((⟨.TOKEN_STRING, ['"', 'h', '"'], 1⟩ : Token).lexeme.drop 1).dropLast),
         .strC (((⟨.TOKEN_STRING, ['"', 'h', '"'], 1⟩ : Token).lexeme.drop 1).dropLast)] ∧
     (string_pre { init_pstate [] with
        previous := ⟨.TOKEN_STRING, ['"', 'h', '"'], 1⟩ }).chunk.code =
      ({ init_pstate [] with
          previous := ⟨.TOKEN_STRING, ['"', 'h', '"'], 1⟩ } : PState).chunk.code ++
        [OP_CONSTANT,
         ({ init_pstate [] with
             previous := ⟨.TOKEN_STRING, ['"', 'h', '"'], 1⟩ } : PState).chunk.constants.length + 1] ∧
     (string_pre { init_pstate [] with
        previous := ⟨.TOKEN_STRING, ['"', 'h', '"'], 1⟩ }).had_error =
      ({ init_pstate [] with
          previous := ⟨.TOKEN_STRING, ['"', 'h', '"'], 1⟩ } : PState).had_error ∧
     (string_pre { init_pstate [] with
        previous := ⟨.TOKEN_STRING, ['"', 'h', '"'], 1⟩ }).errors =
      ({ init_pstate [] with
          previous := ⟨.TOKEN_STRING, ['"', 'h', '"'], 1⟩ } : PState).errors) :=
  ⟨by decide,
   c9_string_literal_two_pool_slots
     { init_pstate [] with previous := ⟨.TOKEN_STRING, ['"', 'h', '"'], 1⟩ } (by decide)⟩

/-- Helper: a strictly descending open-upvalue list has pairwise distinct
locations. -/
theorem upv_sorted_locs_nodup (l : List Upv) (h : upv_sorted l) :
    (l.map Upv.location).Nodup := by
  have h2 : l.Pairwise (fun a b => a.location ≠ b.location) :=
    h.imp (fun hab => ne_of_gt hab)
  exact (List.pairwise_map).mpr h2

/-- Helper: in a strictly descending list, everything the location walk
skips to sits at or below the requested slot. -/
theorem upv_dropWhile_le (local_ : Nat) (l : List Upv) (h : upv_sorted l) :
    ∀ v ∈ l.dropWhile (fun u => decide (local_ < u.location)), v.location ≤ local_ := by
  induction l with
  | nil => intro v hv; exact absurd hv (List.not_mem_nil v)
  | cons u rest ih =>
    rw [upv_sorted, List.pairwise_cons] at h
    obtain ⟨hu, hrest⟩ := h
    intro v hv
    rw [List.dropWhile_cons] at hv
    by_cases hp : local_ < u.location
    · rw [if_pos (by simpa using hp)] at hv
      exact ih hrest v hv
    · rw [if_neg (by simpa using hp)] at hv
      rcases List.mem_cons.mp hv with rfl | hv2
      · omega
      · have := hu v hv2; omega

/-- Helper: splicing a fresh upvalue at the walk position keeps the open
list strictly descending when no entry already occupies the slot. -/
theorem upv_splice_sorted (fresh local_ : Nat) (l : List Upv) (h : upv_sorted l)
    (hno : ∀ u ∈ l, u.location ≠ local_) :
    upv_sorted (l.takeWhile (fun u => decide (local_ < u.location)) ++
      ⟨fresh, local_⟩ :: l.dropWhile (fun u => decide (local_ < u.location))) := by
  have hdrople := upv_dropWhile_le local_ l h
  unfold upv_sorted at h ⊢
  rw [List.pairwise_append]
  refine ⟨h.sublist (List.takeWhile_sublist _), ?_, ?_⟩
  · rw [List.pairwise_cons]
    refine ⟨?_, h.sublist (List.dropWhile_sublist _)⟩
    intro v hv
    have h1 : v.location ≤ local_ := hdrople v hv
    have h2 : v.location ≠ local_ := by
      apply hno
      rw [← List.takeWhile_append_dropWhile
        (p := fun u => decide (local_ < u.location)) (l := l)]
      exact List.mem_append_right _ hv
    show v.location < local_
    omega
  · intro a ha b hb
    have hpa : local_ < a.location := by
      have := List.mem_takeWhile_imp ha
      simpa using this
    rcases List.mem_cons.mp hb with rfl | hb2
    · simpa using hpa
    · have := hdrople b hb2
      show b.location < a.location
      omega

/-- C4: capture_upvalue returns the already-open upvalue when one exists
for the slot (leaving the list untouched), otherwise splices a fresh
upvalue exactly at the walk position; the open list stays strictly sorted
by decreasing stack address and holds at most one entry per slot. -/
theorem c4_capture_upvalue_spec (fresh local_ : Nat) (l : List Upv)
    (hsort : upv_sorted l) :
    ((∃ u ∈ l, u.location = local_) →
      ((capture_upvalue fresh local_ l).1 ∈ l ∧
       (capture_upvalue fresh local_ l).1.location = local_ ∧
       (capture_upvalue fresh local_ l).2 = l)) ∧
    ((∀ u ∈ l, u.location ≠ local_) →
      ((capture_upvalue fresh local_ l).1 = ⟨fresh, local_⟩ ∧
       (capture_upvalue fresh local_ l).2 =
         l.takeWhile (fun u => decide (local_ < u.location)) ++
           ⟨fresh, local_⟩ :: l.dropWhile (fun u => decide (local_ < u.location)))) ∧
    upv_sorted (capture_upvalue fresh local_ l).2 ∧
    ((capture_upvalue fresh local_ l).2.map Upv.location).Nodup := by
  have main : ∀ l2 : List Upv, upv_sorted l2 →
      ((∃ u ∈ l2, u.location = local_) →
        ((capture_upvalue fresh local_ l2).1 ∈ l2 ∧
         (capture_upvalue fresh local_ l2).1.location = local_ ∧
         (capture_upvalue fresh local_ l2).2 = l2)) ∧
      ((∀ u ∈ l2, u.location ≠ local_) →
        ((capture_upvalue fresh local_ l2).1 = ⟨fresh, local_⟩ ∧
         (capture_upvalue fresh local_ l2).2 =
           l2.takeWhile (fun u => decide (local_ < u.location)) ++
             ⟨fresh, local_⟩ :: l2.dropWhile (fun u => decide (local_ < u.location)))) := by
    intro l2
    induction l2 with
    | nil =>
      intro _
      constructor
      · rintro ⟨u, hu, -⟩
        exact absurd hu (List.not_mem_nil u)
      · intro _
        exact ⟨rfl, rfl⟩
    | cons u rest ih =>
      intro hs
      rw [upv_sorted, List.pairwise_cons] at hs
      obtain ⟨hu, hrest⟩ := hs
      have IH := ih hrest
      by_cases hlt : local_ < u.location
      · rcases hres : capture_upvalue fresh local_ rest with ⟨r, rest1⟩
        have hcap : capture_upvalue fresh local_ (u :: rest) = (r, u :: rest1) := by
          simp [capture_upvalue, if_pos hlt, hres]
        rw [hres] at IH
        constructor
        · rintro ⟨w, hw, hwl⟩
          rcases List.mem_cons.mp hw with rfl | hw2
          · exact absurd hwl (ne_of_gt hlt)
          · obtain ⟨hm, hl, he⟩ := IH.1 ⟨w, hw2, hwl⟩
            have hm2 : r ∈ rest := hm
            have hl2 : r.location = local_ := hl
            have he2 : rest1 = rest := he
            rw [hcap]
            exact ⟨List.mem_cons_of_mem u hm2, hl2, by rw [show rest1 = rest from he2]⟩
        · intro hno
          obtain ⟨hr, he⟩ :=
            IH.2 (fun v hv => hno v (List.mem_cons_of_mem u hv))
          have hr2 : r = ⟨fresh, local_⟩ := hr
          have he2 : rest1 =
              List.takeWhile (fun u => decide (local_ < u.location)) rest ++
                ⟨fresh, local_⟩ :: List.dropWhile (fun u => decide (local_ < u.location)) rest :=
            he
          rw [hcap]
          refine ⟨hr2, ?_⟩
          rw [List.takeWhile_cons, List.dropWhile_cons]
          rw [if_pos (by simpa using hlt), if_pos (by simpa using hlt)]
          simp only [List.cons_append]
          simp only [he2]
      · by_cases heq : u.location = local_
        · have hcap : capture_upvalue fresh local_ (u :: rest) = (u, u :: rest) := by
            simp [capture_upvalue, if_neg hlt, if_pos heq]
          constructor
          · intro _
            rw [hcap]
            exact ⟨List.mem_cons_self u rest, heq, rfl⟩
          · intro hno
            exact absurd heq (hno u (List.mem_cons_self u rest))
        · have hcap : capture_upvalue fresh local_ (u :: rest) =
              (⟨fresh, local_⟩, ⟨fresh, local_⟩ :: u :: rest) := by
            simp [capture_upvalue, if_neg hlt, if_neg heq]
          constructor
          · rintro ⟨w, hw, hwl⟩
            exfalso
            rcases List.mem_cons.mp hw with rfl | hw2
            · exact heq hwl
            · have hwu : w.location < u.location := hu w hw2
              omega
          · intro _
            rw [hcap]
            refine ⟨rfl, ?_⟩
            rw [List.takeWhile_cons, List.dropWhile_cons]
            rw [if_neg (by simpa using hlt), if_neg (by simpa using hlt)]
            simp
  have mainl := main l hsort
  refine ⟨mainl.1, mainl.2, ?_, ?_⟩
  · by_cases hex : ∃ u ∈ l, u.location = local_
    · rw [(mainl.1 hex).2.2]
      exact hsort
    · push_neg at hex
      rw [(mainl.2 hex).2]
      exact upv_splice_sorted fresh local_ l hsort hex
  · by_cases hex : ∃ u ∈ l, u.location = local_
    · rw [(mainl.1 hex).2.2]
      exact upv_sorted_locs_nodup l hsort
    · push_neg at hex
      rw [(mainl.2 hex).2]
      exact upv_sorted_locs_nodup _ (upv_splice_sorted fresh local_ l hsort hex)

/-- Witness for C4 at a concrete instance: capturing slot 2 in an open
list holding slots 5 and 1. -/
theorem c4_capture_upvalue_spec_witness :
    upv_sorted [⟨0, 5⟩, ⟨1, 1⟩] ∧
    (((∃ u ∈ [(⟨0, 5⟩ : Upv), ⟨1, 1⟩], u.location = 2) →
      ((capture_upvalue 7 2 [⟨0, 5⟩, ⟨1, 1⟩]).1 ∈ [(⟨0, 5⟩ : Upv), ⟨1, 1⟩] ∧
       (capture_upvalue 7 2 [⟨0, 5⟩, ⟨1, 1⟩]).1.location = 2 ∧
       (capture_upvalue 7 2 [⟨0, 5⟩, ⟨1, 1⟩]).2 = [⟨0, 5⟩, ⟨1, 1⟩])) ∧
    ((∀ u ∈ [(⟨0, 5⟩ : Upv), ⟨1, 1⟩], u.location ≠ 2) →
      ((capture_upvalue 7 2 [⟨0, 5⟩, ⟨1, 1⟩]).1 = ⟨7, 2⟩ ∧
       (capture_upvalue 7 2 [⟨0, 5⟩, ⟨1, 1⟩]).2 =
         List.takeWhile (fun u => decide (2 < u.location)) [(⟨0, 5⟩ : Upv), ⟨1, 1⟩] ++
           ⟨7, 2⟩ :: List.dropWhile (fun u => decide (2 < u.location)) [(⟨0, 5⟩ : Upv), ⟨1, 1⟩])) ∧
    upv_sorted (capture_upvalue 7 2 [⟨0, 5⟩, ⟨1, 1⟩]).2 ∧
    (((capture_upvalue 7 2 [⟨0, 5⟩, ⟨1, 1⟩]).2.map Upv.location).Nodup)) :=
  ⟨by simp [upv_sorted], c4_capture_upvalue_spec 7 2 _ (by simp [upv_sorted])⟩

/-- Witness for C3 at a concrete instance: a 100-byte growth from the
initial state. -/
theorem c3_gc_trigger_and_growth_witness :
    ((0 : Nat) ≤ init_vm_gc.bytes_allocated + 100 ∧
      init_vm_gc.bytes_allocated + 100 < SIZE_T_MOD) ∧
    (init_vm_gc.bytes_allocated = 0 ∧
     init_vm_gc.next_gc = 1024 * 1024 ∧
     ((reallocate false 0 100 0 0 init_vm_gc).collections ≠ init_vm_gc.collections ↔
       ((false = true ∧ 0 < 100) ∨
         init_vm_gc.next_gc < init_vm_gc.bytes_allocated + 100 - 0)) ∧
     (∀ freed (st2 : GcSt), (collect_garbage freed st2).next_gc =
       (st2.bytes_allocated - freed) * 3 % SIZE_T_MOD / 2)) :=
  ⟨⟨by decide, by norm_num [init_vm_gc, SIZE_T_MOD]⟩,
   c3_gc_trigger_and_growth false 0 100 0 0 init_vm_gc (by decide)
     (by norm_num [init_vm_gc, SIZE_T_MOD])⟩

end Clox
